import Mathlib

/-!
Verification development for the chess-tactics-trainer repository.

The development shallowly embeds `src/engine.py`.  The external rules
engine (python-chess) is modelled by a concrete bitboard implementation of
the primitives that `engine.py` consumes: `attacks`, `attackers`,
`piece_at`, `between`, `push`/`pop`/`peek`, legal-move generation and
`is_game_over`.  The external evaluation oracle (`engine.analyse`) is a
parameter: a function from a board, a search limit and a line count to a
list of principal variations with engine-perspective centipawn scores.

Modelling notes (rules engine): castling, en passant and the draw
counters (halfmove clock / repetition) are not modelled; `is_game_over`
is "no legal move".  None of the concrete positions used below involve
those features.  Scores are `Int` centipawns already converted by
`score.pov(engine_colour).score(mate_score=100000)` as in the source.
-/

namespace ChessTrainer

/-! ## Bitboard primitives (model of the python-chess board interface) -/

def BB_ALL : Nat := 0xFFFFFFFFFFFFFFFF

/-- Bitwise complement within the 64-square universe. -/
def bbNot (m : Nat) : Nat := BB_ALL ^^^ m

def bbSquare (s : Nat) : Nat := 1 <<< s

def fileOf (s : Nat) : Nat := s % 8

def rankOf (s : Nat) : Nat := s / 8

def onBoard (f r : Int) : Bool := 0 ≤ f && f < 8 && 0 ≤ r && r < 8

def mkSq (f r : Int) : Nat := (r * 8 + f).toNat

def bitCount (m : Nat) : Nat := ((List.range 64).filter (fun i => m.testBit i)).length

/-- Squares of a mask in ascending order (python-chess `SquareSet` iteration). -/
def scanFwd (m : Nat) : List Nat := (List.range 64).filter (fun i => m.testBit i)

/-- Squares of a mask in descending order (`chess.scan_reversed`). -/
def scanRev (m : Nat) : List Nat := (scanFwd m).reverse

/-- Remove a square from a square-set mask (`SquareSet.remove` /
`SquareSet.discard`; removing an absent square is the identity). -/
def clearBitN (m : Nat) (s : Nat) : Nat := m &&& bbNot (bbSquare s)

def stepOffsets (offs : List (Int × Int)) (s : Nat) : Nat :=
  offs.foldl (fun acc o =>
    let f : Int := (fileOf s : Int) + o.1
    let r : Int := (rankOf s : Int) + o.2
    if onBoard f r then acc ||| bbSquare (mkSq f r) else acc) 0

def knightMask (s : Nat) : Nat :=
  stepOffsets [(1,2),(2,1),(2,-1),(1,-2),(-1,-2),(-2,-1),(-2,1),(-1,2)] s

def kingMask (s : Nat) : Nat :=
  stepOffsets [(1,0),(1,1),(0,1),(-1,1),(-1,0),(-1,-1),(0,-1),(1,-1)] s

def pawnMask (white : Bool) (s : Nat) : Nat :=
  if white then stepOffsets [(-1,1),(1,1)] s else stepOffsets [(-1,-1),(1,-1)] s

/-- Walk one sliding ray, stopping at (and including) the first occupied square. -/
def slideRay (occ : Nat) (df dr : Int) : Nat → Int → Int → Nat
  | 0, _, _ => 0
  | n+1, f, r =>
    if onBoard f r then
      let t := mkSq f r
      if occ.testBit t then bbSquare t
      else bbSquare t ||| slideRay occ df dr n (f + df) (r + dr)
    else 0

def slideFrom (occ : Nat) (s : Nat) (d : Int × Int) : Nat :=
  slideRay occ d.1 d.2 7 ((fileOf s : Int) + d.1) ((rankOf s : Int) + d.2)

def bishopMask (occ : Nat) (s : Nat) : Nat :=
  [((1 : Int), (1 : Int)), (1,-1), (-1,1), (-1,-1)].foldl
    (fun a d => a ||| slideFrom occ s d) 0

def rookMask (occ : Nat) (s : Nat) : Nat :=
  [((1 : Int), (0 : Int)), (-1,0), (0,1), (0,-1)].foldl
    (fun a d => a ||| slideFrom occ s d) 0

def queenMask (occ : Nat) (s : Nat) : Nat := bishopMask occ s ||| rookMask occ s

/-- Full (empty-occupancy) file ray through `s`, i.e. `chess.BB_FILE_ATTACKS[s][0]`. -/
def fileRayFull (s : Nat) : Nat := slideFrom 0 s (0,1) ||| slideFrom 0 s (0,-1)

/-- Full rank ray through `s`, i.e. `chess.BB_RANK_ATTACKS[s][0]`. -/
def rankRayFull (s : Nat) : Nat := slideFrom 0 s (1,0) ||| slideFrom 0 s (-1,0)

/-- Full diagonal rays through `s`, i.e. `chess.BB_DIAG_ATTACKS[s][0]`. -/
def diagRayFull (s : Nat) : Nat := bishopMask 0 s

def betweenGo (fb rb df dr : Int) : Nat → Int → Int → Nat
  | 0, _, _ => 0
  | n+1, f, r =>
    if f == fb && r == rb then 0
    else if onBoard f r then bbSquare (mkSq f r) ||| betweenGo fb rb df dr n (f+df) (r+dr)
    else 0

/-- Squares strictly between two aligned squares (`chess.between`); 0 otherwise. -/
def between (a b : Nat) : Nat :=
  let fa : Int := fileOf a
  let ra : Int := rankOf a
  let fb : Int := fileOf b
  let rb : Int := rankOf b
  let df := fb - fa
  let dr := rb - ra
  if a == b then 0
  else if df == 0 || dr == 0 || df.natAbs == dr.natAbs then
    let sf : Int := if 0 < df then 1 else if df < 0 then -1 else 0
    let sr : Int := if 0 < dr then 1 else if dr < 0 then -1 else 0
    betweenGo fb rb sf sr 8 (fa + sf) (ra + sr)
  else 0

/-! ## Piece types and values (`PIECE_VALUES` in the source) -/

def PAWN : Nat := 1
def KNIGHT : Nat := 2
def BISHOP : Nat := 3
def ROOK : Nat := 4
def QUEEN : Nat := 5
def KING : Nat := 6

def PIECE_VALUES (t : Nat) : Int :=
  if t == PAWN then 100
  else if t == KNIGHT then 300
  else if t == BISHOP then 300
  else if t == ROOK then 500
  else if t == QUEEN then 900
  else if t == KING then 20000
  else 0

/-! ## Positions and moves -/

structure Move where
  fromSquare : Nat
  toSquare : Nat
  promotion : Option Nat := none
deriving DecidableEq

structure Position where
  pawns : Nat
  knights : Nat
  bishops : Nat
  rooks : Nat
  queens : Nat
  kings : Nat
  white : Nat
  black : Nat
  turn : Bool
deriving DecidableEq

namespace Position

def occupied (p : Position) : Nat := p.white ||| p.black

/-- Model of `board.occupied_co[c]` with `true` = white. -/
def occCo (p : Position) (c : Bool) : Nat := if c then p.white else p.black

def pieceTypeAt (p : Position) (s : Nat) : Option Nat :=
  if p.pawns.testBit s then some PAWN
  else if p.knights.testBit s then some KNIGHT
  else if p.bishops.testBit s then some BISHOP
  else if p.rooks.testBit s then some ROOK
  else if p.queens.testBit s then some QUEEN
  else if p.kings.testBit s then some KING
  else none

def colorAt (p : Position) (s : Nat) : Option Bool :=
  if p.white.testBit s then some true
  else if p.black.testBit s then some false
  else none

/-- Model of `PIECE_VALUES[board.piece_at(s).piece_type]` (0 on an empty square). -/
def valueAt (p : Position) (s : Nat) : Int :=
  match p.pieceTypeAt s with
  | some t => PIECE_VALUES t
  | none => 0

/-- Model of `board.attacks(s)`: attack mask of the piece standing on `s`. -/
def attacksFrom (p : Position) (s : Nat) : Nat :=
  match p.pieceTypeAt s with
  | none => 0
  | some t =>
    if t == PAWN then pawnMask (p.white.testBit s) s
    else if t == KNIGHT then knightMask s
    else if t == BISHOP then bishopMask p.occupied s
    else if t == ROOK then rookMask p.occupied s
    else if t == QUEEN then queenMask p.occupied s
    else kingMask s

/-- Model of `board.attackers(c, s)` as a mask. -/
def attackersMask (p : Position) (c : Bool) (s : Nat) : Nat :=
  (List.range 64).foldl (fun acc t =>
    if (p.occCo c).testBit t && (p.attacksFrom t).testBit s then acc ||| bbSquare t
    else acc) 0

/-- Model of `board.is_attacked_by(c, s)`. -/
def isAttackedBy (p : Position) (c : Bool) (s : Nat) : Bool :=
  p.attackersMask c s != 0

/-- Model of `board.king(c)`: a king square of colour `c`, if any. -/
def kingSq (p : Position) (c : Bool) : Option Nat :=
  (scanFwd (p.kings &&& p.occCo c)).head?

def clearSquare (p : Position) (s : Nat) : Position :=
  { p with
    pawns := clearBitN p.pawns s
    knights := clearBitN p.knights s
    bishops := clearBitN p.bishops s
    rooks := clearBitN p.rooks s
    queens := clearBitN p.queens s
    kings := clearBitN p.kings s
    white := clearBitN p.white s
    black := clearBitN p.black s }

def setPiece (p : Position) (s : Nat) (c : Bool) (t : Nat) : Position :=
  let q := p.clearSquare s
  { q with
    pawns := if t == PAWN then q.pawns ||| bbSquare s else q.pawns
    knights := if t == KNIGHT then q.knights ||| bbSquare s else q.knights
    bishops := if t == BISHOP then q.bishops ||| bbSquare s else q.bishops
    rooks := if t == ROOK then q.rooks ||| bbSquare s else q.rooks
    queens := if t == QUEEN then q.queens ||| bbSquare s else q.queens
    kings := if t == KING then q.kings ||| bbSquare s else q.kings
    white := if c then q.white ||| bbSquare s else q.white
    black := if c then q.black else q.black ||| bbSquare s }

/-- Model of `board.push(m)` on the placement: move (and possibly promote) the piece at
`m.fromSquare`, capturing whatever stood on `m.toSquare`, and flip the turn. -/
def apply (p : Position) (m : Move) : Position :=
  match p.pieceTypeAt m.fromSquare, p.colorAt m.fromSquare with
  | some t, some c =>
    let t2 := m.promotion.getD t
    let p1 := (p.clearSquare m.fromSquare).setPiece m.toSquare c t2
    { p1 with turn := !p.turn }
  | _, _ => { p with turn := !p.turn }

end Position

/-- A board is a position plus the retained move stack (previous positions
paired with the move that left them). -/
structure Board where
  pos : Position
  stack : List (Position × Move)
deriving DecidableEq

namespace Board

def push (b : Board) (m : Move) : Board :=
  ⟨b.pos.apply m, (b.pos, m) :: b.stack⟩

/-- Model of `board.peek()`: the last move pushed. -/
def peek (b : Board) : Option Move := b.stack.head?.map (·.2)

/-- The position before the last move (`board.copy(); board.pop()`). -/
def lastPos (b : Board) : Option Position := b.stack.head?.map (·.1)

/-- Model of `board.copy(stack=1)`. -/
def copyStack1 (b : Board) : Board := ⟨b.pos, b.stack.take 1⟩

/-- Model of `board.copy(stack=False)`. -/
def copyStack0 (b : Board) : Board := ⟨b.pos, []⟩

end Board

/-! ## Legal move generation (model of python-chess movegen, no castling/e.p.) -/

def promoteExpand (c : Bool) (s t : Nat) : List Move :=
  if rankOf t == (if c then 7 else 0) then
    [⟨s, t, some QUEEN⟩, ⟨s, t, some ROOK⟩, ⟨s, t, some BISHOP⟩, ⟨s, t, some KNIGHT⟩]
  else [⟨s, t, none⟩]

def pawnTargets (p : Position) (c : Bool) (s : Nat) : List Nat :=
  let dir : Int := if c then 1 else -1
  let f : Int := fileOf s
  let r : Int := rankOf s
  let one := r + dir
  let singles :=
    if onBoard f one && !p.occupied.testBit (mkSq f one) then [mkSq f one] else []
  let startRank : Int := if c then 1 else 6
  let doubles :=
    if r == startRank && !singles.isEmpty && !p.occupied.testBit (mkSq f (r + 2*dir)) then
      [mkSq f (r + 2*dir)]
    else []
  let caps := scanFwd (pawnMask c s &&& p.occCo (!c))
  singles ++ doubles ++ caps

def pseudoMovesAt (p : Position) (s : Nat) : List Move :=
  match p.pieceTypeAt s with
  | none => []
  | some t =>
    let c := p.white.testBit s
    if t == PAWN then
      (pawnTargets p c s).flatMap (promoteExpand c s)
    else
      (scanFwd (p.attacksFrom s &&& bbNot (p.occCo c))).map (fun u => ⟨s, u, none⟩)

def pseudoMoves (p : Position) : List Move :=
  (scanFwd (p.occCo p.turn)).flatMap (pseudoMovesAt p)

def legalMovesP (p : Position) : List Move :=
  (pseudoMoves p).filter (fun m =>
    let q := p.apply m
    match q.kingSq p.turn with
    | some k => !q.isAttackedBy (!p.turn) k
    | none => true)

def Board.legalCount (b : Board) : Nat := (legalMovesP b.pos).length

/-- Model of `board.is_game_over()` (draw counters not modelled). -/
def Board.isGameOver (b : Board) : Bool := (legalMovesP b.pos).isEmpty

/-! ## The detectors (`class TacticSearch` in `src/engine.py`) -/

namespace TacticSearch

/-- Model of `TacticSearch.absolute_pinner`: the sniper pinning `square` to the king of
`colour`, walking the file/rank/diagonal ray families in source order and
stopping at the first family whose full ray through the king covers `square`. -/
def absolute_pinner (p : Position) (colour : Bool) (square : Nat) : Option Nat :=
  match p.kingSq colour with
  | none => none
  | some king =>
    let squareMask := bbSquare square
    let families : List (Nat × Nat) :=
      [(fileRayFull king, p.rooks ||| p.queens),
       (rankRayFull king, p.rooks ||| p.queens),
       (diagRayFull king, p.bishops ||| p.queens)]
    match families.find? (fun fam => fam.1 &&& squareMask != 0) with
    | none => none
    | some fam =>
      let snipers := fam.1 &&& fam.2 &&& p.occCo (!colour)
      (scanRev snipers).find? (fun sniper =>
        between sniper king &&& (p.occupied ||| squareMask) == squareMask)

/-- Model of `TacticSearch.relative_pinner`: like `absolute_pinner` but anchored at
`piece` instead of the king. -/
def relative_pinner (p : Position) (colour : Bool) (square piece : Nat) : Option Nat :=
  let squareMask := bbSquare square
  let families : List (Nat × Nat) :=
    [(fileRayFull piece, p.rooks ||| p.queens),
     (rankRayFull piece, p.rooks ||| p.queens),
     (diagRayFull piece, p.bishops ||| p.queens)]
  match families.find? (fun fam => fam.1 &&& squareMask != 0) with
  | none => none
  | some fam =>
    let snipers := fam.1 &&& fam.2 &&& p.occCo (!colour)
    (scanRev snipers).find? (fun sniper =>
      between piece sniper &&& (p.occupied ||| squareMask) == squareMask)

/-- The "pinned piece was a crucial defender of another attacked piece" check
shared verbatim by `absolute_pin` and `relative_pin` (source lines 399-415 and
473-489): some ally defended by the pinned piece ends up with more attackers
than defenders once the pinner and the pinned piece are not counted. -/
def allyDefenseCheck (p : Position) (pinning_square square : Nat) : Bool :=
  let defending := p.attacksFrom square &&& p.occCo p.turn
  (scanFwd defending).any (fun ally =>
    p.isAttackedBy (!p.turn) ally &&
    (let attackers := clearBitN (p.attackersMask (!p.turn) ally) pinning_square
     let defenders := clearBitN (p.attackersMask p.turn ally) square
     bitCount attackers > bitCount defenders))

/-- Model of `TacticSearch.absolute_pin`. -/
def absolute_pin (b : Board) (next_move : Option Move) : List Nat :=
  match b.lastPos with
  | none => []
  | some last_position =>
    let p := b.pos
    let filtered_pieces := p.occCo p.turn &&& bbNot p.kings
    let hit := (scanRev filtered_pieces).find? (fun square =>
      match absolute_pinner p p.turn square with
      | none => false
      | some pinning_square =>
        match absolute_pinner last_position p.turn square with
        | some _ => false
        | none =>
          if (match next_move with
              | some nm => nm.toSquare == pinning_square &&
                  bitCount (p.attackersMask (!p.turn) pinning_square) == 0
              | none => false) then false
          else if p.valueAt pinning_square < p.valueAt square then true
          else if bitCount (p.attackersMask (!p.turn) square) >
                  bitCount (p.attackersMask p.turn square) then true
          else allyDefenseCheck p pinning_square square)
    match hit with
    | some square => [square]
    | none => []

/-- The body of `relative_pin`'s double loop on one `(valued_square,
pin_square)` pair (source lines 435-489). -/
def relativePinBody (p last_position : Position) (next_move : Option Move)
    (valued_square pin_square : Nat) : Option Nat :=
  if pin_square == valued_square then none
  else if p.valueAt pin_square > p.valueAt valued_square then none
  else
    match relative_pinner p p.turn pin_square valued_square with
    | none => none
    | some pinning_square =>
      match relative_pinner last_position p.turn pin_square valued_square with
      | some _ => none
      | none =>
        if (match next_move with
            | some nm => nm.toSquare == pinning_square &&
                bitCount (p.attackersMask (!p.turn) pinning_square) == 0
            | none => false) then none
        else if p.valueAt valued_square ≤ p.valueAt pinning_square then none
        else if p.valueAt pinning_square < p.valueAt pin_square then
          some pin_square
        else if bitCount (p.attackersMask (!p.turn) pin_square) >
                bitCount (p.attackersMask p.turn pin_square) then
          some pin_square
        else if allyDefenseCheck p pinning_square pin_square then
          some pin_square
        else none

/-- Model of `TacticSearch.relative_pin`. -/
def relative_pin (b : Board) (next_move : Option Move) : List Nat :=
  match b.lastPos with
  | none => []
  | some last_position =>
    let p := b.pos
    let valued_pieces := p.occCo p.turn &&& bbNot p.kings &&& bbNot p.pawns
    let pinnable_pieces := p.occCo p.turn &&& bbNot p.kings
    let hit := (scanRev valued_pieces).findSome? (fun valued_square =>
      (scanRev pinnable_pieces).findSome?
        (relativePinBody p last_position next_move valued_square))
    match hit with
    | some square => [square]
    | none => []

/-- The body of `skewer`'s double loop on one `(skewered_square,
valued_square)` pair (source lines 506-544); `some []` is the inner
`return []` that aborts the whole search. -/
def skewerBody (b : Board) (next_move : Option Move)
    (skewered_square valued_square : Nat) : Option (List Nat) :=
  let p := b.pos
  if skewered_square == valued_square then none
  else if p.valueAt skewered_square > p.valueAt valued_square then none
  else
    match relative_pinner p p.turn valued_square skewered_square with
    | none => none
    | some skewering_square =>
      if p.valueAt valued_square ≤ p.valueAt skewering_square then none
      else if (match next_move with
          | some nm => nm.toSquare == skewering_square &&
              bitCount (p.attackersMask (!p.turn) skewered_square) == 0
          | none => false) then some []
      else if p.valueAt skewering_square < p.valueAt skewered_square then
        some [skewered_square]
      else match next_move with
        | none => some [skewered_square]
        | some nm =>
          let temp := b.copyStack1.push nm
          if bitCount (temp.pos.attackersMask temp.pos.turn skewered_square) >
             bitCount (temp.pos.attackersMask (!temp.pos.turn) skewered_square) then
            some [skewered_square]
          else none

/-- Model of `TacticSearch.skewer`. -/
def skewer (b : Board) (next_move : Option Move) : List Nat :=
  if b.stack.isEmpty then []
  else
    let p := b.pos
    let valuable_pieces := p.occCo p.turn &&& bbNot p.pawns
    let other_pieces := p.occCo p.turn &&& bbNot p.kings
    let res := (scanRev other_pieces).findSome? (fun skewered_square =>
      (scanRev valuable_pieces).findSome? (skewerBody b next_move skewered_square))
    match res with
    | some result => result
    | none => []

/-- The per-target test of `TacticSearch.fork` (source lines 575-593): an
attacked piece is recorded as forked iff it is a king, or outvalues the
forking piece, or has more attackers than defenders. -/
def forkTargetCheck (p : Position) (forking_value : Int) (square : Nat) : Bool :=
  p.pieceTypeAt square == some KING ||
  p.valueAt square > forking_value ||
  bitCount (p.attackersMask (!p.turn) square) >
    bitCount (p.attackersMask p.turn square)

/-- Model of `TacticSearch.fork`. -/
def fork (b : Board) (next_move : Option Move) : List Nat :=
  match b.peek with
  | none => []
  | some forking_move =>
    let p := b.pos
    if (match next_move with
        | some nm => nm.toSquare == forking_move.toSquare &&
            bitCount (p.attackersMask (!p.turn) forking_move.toSquare) == 0
        | none => false) then []
    else
      let attacked_pieces := p.attacksFrom forking_move.toSquare &&& p.occCo p.turn
      if bitCount attacked_pieces < 2 then []
      else
        let forking_value := p.valueAt forking_move.toSquare
        let king_forked := (scanFwd attacked_pieces).any (fun square =>
          p.pieceTypeAt square == some KING)
        let forked_pieces := (scanFwd attacked_pieces).filter
          (forkTargetCheck p forking_value)
        if forked_pieces.length < 2 && !king_forked then []
        else match next_move with
          | none => if forked_pieces.length < 2 then [] else forked_pieces
          | some nm =>
            if !attacked_pieces.testBit nm.fromSquare then forked_pieces
            else
              let temp := b.copyStack0.push nm
              let attacked2 :=
                let base := clearBitN attacked_pieces nm.fromSquare
                if (temp.pos.attacksFrom forking_move.toSquare).testBit nm.toSquare then
                  base ||| bbSquare nm.toSquare
                else base
              let next_forked := (scanFwd attacked2).filter (fun square =>
                let attackers := temp.pos.attackersMask temp.pos.turn square
                let defenders := temp.pos.attackersMask (!temp.pos.turn) square
                bitCount attackers > bitCount defenders ||
                (scanFwd attackers).any (fun attacker =>
                  temp.pos.valueAt attacker < temp.pos.valueAt square))
              if next_forked.length < 1 then [] else forked_pieces

end TacticSearch

/-! ## The tactic record (`class Tactic` in `src/engine.py`) -/

structure Tactic where
  sequence : List Move
  type : Nat
  score : Int
  index : Nat
  max_index : Int
deriving DecidableEq

/-- Model of `Tactic.__init__(sequence, score, type)`: cursor at 0, `max_index = len - 1`. -/
def Tactic.make (sequence : List Move) (score : Int) (type : Nat) : Tactic :=
  ⟨sequence, type, score, 0, (sequence.length : Int) - 1⟩

/-- Model of `Tactic.next_move`: `sequence[index]` then `index += 1`; `none` models the
`IndexError` raised when the cursor is past the end. -/
def Tactic.next_move (t : Tactic) : Option (Move × Tactic) :=
  match t.sequence.get? t.index with
  | none => none
  | some m => some (m, { t with index := t.index + 1 })

/-- Model of `Tactic.hint_move`: `sequence[index]` without advancing. -/
def Tactic.hint_move (t : Tactic) : Option Move :=
  t.sequence.get? t.index

/-- Model of `Tactic.moves_left`: `((max_index - index) // 2) + 1` with Python floor
division. -/
def Tactic.moves_left (t : Tactic) : Int :=
  (t.max_index - (t.index : Int)).fdiv 2 + 1

/-! ## The engine (`class TacticsEngine` in `src/engine.py`) -/

/-- Model of `TACTIC_TYPES` ordinals. -/
def TT_CHECKMATE : Nat := 0
def TT_FORK : Nat := 1
def TT_ABSOLUTE_PIN : Nat := 2
def TT_RELATIVE_PIN : Nat := 3
def TT_SKEWER : Nat := 4

/-- A `chess.engine.Limit` (time in whole seconds suffices for the limits the
source builds). -/
structure Limit where
  time : Option Nat
  depth : Option Nat
deriving DecidableEq

/-- One entry of an `engine.analyse(...)` result: a principal variation and
`score.pov(engine_colour).score(mate_score=100000)`. -/
structure InfoDict where
  pv : List Move
  score : Int
deriving DecidableEq

/-- The external evaluation oracle, with a uniform bound on how many lines a
query can return (a real engine returns at most the requested `multipv`). -/
structure Oracle where
  analyse : Board → Limit → Nat → List InfoDict
  B : Nat
  hB : ∀ b l k, (analyse b l k).length ≤ B

/-- The mutable state of a `TacticsEngine` (the oracle process itself is passed
separately to each operation). -/
structure EngineState where
  board : Board
  engine_colour : Bool
  current_tactic : Option Tactic
  tactic_types : List Nat
  max_search_depth : Nat
  search_limit : Limit
  search_pv : Nat
  err_bound : Int
  only_move_bound : Int
  num_pv : Nat
  min_bound : Int
  forcing_bound : Int
  normal_move_limit : Limit
deriving DecidableEq

namespace TacticsEngine

/-- Model of `TacticsEngine.__init__` field defaults (difficulty-dependent fields start
at the "medium" tier of `set_difficulty`; the source leaves them `None` until
`set_difficulty` is called, and every scenario below sets them explicitly). -/
def init (board : Board) (engine_colour : Bool) : EngineState :=
  { board := board
    engine_colour := engine_colour
    current_tactic := none
    tactic_types := [TT_CHECKMATE, TT_FORK, TT_ABSOLUTE_PIN, TT_RELATIVE_PIN, TT_SKEWER]
    max_search_depth := 20
    search_limit := ⟨none, some 14⟩
    search_pv := 5
    err_bound := 50
    only_move_bound := 300
    num_pv := 5
    min_bound := -350
    forcing_bound := 200
    normal_move_limit := ⟨some 10, some 12⟩ }

/-- Model of `TacticsEngine.set_difficulty`. -/
def set_difficulty (s : EngineState) (value : Nat) : EngineState :=
  if value == 0 then
    { s with num_pv := 7, min_bound := -600, forcing_bound := 300
             normal_move_limit := ⟨some 10, some 8⟩ }
  else if value == 1 then
    { s with num_pv := 5, min_bound := -350, forcing_bound := 200
             normal_move_limit := ⟨some 10, some 12⟩ }
  else
    { s with num_pv := 3, min_bound := -300, forcing_bound := 200
             normal_move_limit := ⟨some 10, some 18⟩ }

/-- Model of `TacticsEngine.only_move`.  Outer `none` models a crash (empty analysis or
empty principal variation); `some none` is the source's `return None`. -/
def only_move (s : EngineState) (analysis : List InfoDict) (best_score : Int) :
    Option (Option Move) :=
  match analysis with
  | [] => none
  | a0 :: rest =>
    match a0.pv with
    | [] => none
    | current_move :: _ =>
      match rest with
      | [] => some (some current_move)
      | a1 :: _ =>
        if best_score ≥ a1.score + s.only_move_bound then some (some current_move)
        else some none

/-- The loop of `TacticsEngine._select_normal_move`: return the first move
whose score is ≤ 0, else the last examined move; `none` models the `NameError`
on an empty analysis and the `IndexError` on an empty principal variation. -/
def normalLoop : List InfoDict → Option Move → Option Move
  | [], last => last
  | d :: rest, _ =>
    match d.pv with
    | [] => none
    | current_move :: _ =>
      if d.score ≤ 0 then some current_move
      else normalLoop rest (some current_move)

/-- Model of `TacticsEngine._select_normal_move`. -/
def select_normal_move (o : Oracle) (s : EngineState) : Option (Move × EngineState) :=
  let analysis := o.analyse s.board s.normal_move_limit s.num_pv
  (normalLoop analysis none).map (fun m => (m, s))

/-- Model of `TacticsEngine._position_tactic_check`. -/
def position_tactic_check (s : EngineState) (board : Board) (engine_move : Option Move) :
    Int :=
  if s.tactic_types.contains TT_FORK && !(TacticSearch.fork board engine_move).isEmpty then
    TT_FORK
  else if s.tactic_types.contains TT_SKEWER &&
      !(TacticSearch.skewer board engine_move).isEmpty then
    TT_SKEWER
  else if s.tactic_types.contains TT_ABSOLUTE_PIN &&
      !(TacticSearch.absolute_pin board engine_move).isEmpty then
    TT_ABSOLUTE_PIN
  else if s.tactic_types.contains TT_RELATIVE_PIN &&
      !(TacticSearch.relative_pin board engine_move).isEmpty then
    TT_RELATIVE_PIN
  else -1

/-- A transient search node: `(board snapshot, ply depth, accumulated moves)`. -/
structure SearchNode where
  board : Board
  depth : Nat
  sequence : List Move
deriving DecidableEq

/-- Model of `TacticsEngine._process_engine_moves`: append a child node for every
acceptable candidate; `none` models the `IndexError` on an empty principal
variation. -/
def process_engine_moves (s : EngineState) (board : Board) (depth : Nat)
    (sequence : List Move) (analysis : List InfoDict) (search_queue : List SearchNode)
    (best_score : Int) : Option (List SearchNode) :=
  analysis.foldlM (fun queue info =>
    match info.pv with
    | [] => none
    | m :: _ =>
      if (depth == 0 && info.score ≥ s.min_bound) ||
         (depth != 0 && info.score ≥ best_score - s.err_bound) then
        some (queue ++ [⟨board.copyStack1.push m, depth + 1, sequence ++ [m]⟩])
      else some queue) search_queue

/-- Model of `TacticsEngine._process_player_moves`: if the reply is forced, look for a
tactic on the resulting position; on a hit, install the record and empty the
queue.  Crashes (`pv[0]`/`pv[1]` out of range) are `none`. -/
def process_player_moves (s : EngineState) (board : Board) (depth : Nat)
    (sequence : List Move) (analysis : List InfoDict) (search_queue : List SearchNode)
    (best_score : Int) : Option (List SearchNode × EngineState) :=
  let best_move_clear :=
    match analysis with
    | [_] => best_score ≤ -s.forcing_bound
    | _ :: a1 :: _ => best_score ≤ a1.score - s.forcing_bound
    | [] => false
  if !best_move_clear then some (search_queue, s)
  else
    match analysis with
    | [] => none
    | a0 :: rest =>
      match a0.pv with
      | [] => none
      | best_move :: pv_rest =>
        let next_board := board.copyStack1.push best_move
        let tactic_type? : Option Int :=
          match rest with
          | [] => some (position_tactic_check s next_board none)
          | _ :: _ =>
            match pv_rest with
            | [] => none
            | m2 :: _ => some (position_tactic_check s next_board (some m2))
        match tactic_type? with
        | none => none
        | some tactic_type =>
          if 0 ≤ tactic_type then
            let t := Tactic.make (sequence ++ [best_move]) a0.score tactic_type.toNat
            some ([], { s with current_tactic := some t })
          else
            some (search_queue ++ [⟨next_board, depth + 1, sequence ++ [best_move]⟩], s)

/-- Outcome of the `tactic_search` worklist loop: a final state with the
number of oracle queries issued, a crash, or fuel exhaustion. -/
inductive SearchOutcome where
  | out (s : EngineState) (queries : Nat)
  | err
  | fuelOut
deriving DecidableEq

/-- One iteration of the `tactic_search` loop on the dequeued node; `dq` is
the number of oracle queries the iteration issued (0 or 1). -/
inductive StepResult where
  | ret (s : EngineState)
  | err
  | cont (queue : List SearchNode) (s : EngineState) (dq : Nat)

def stepNode (o : Oracle) (s : EngineState) (node : SearchNode)
    (rest : List SearchNode) : StepResult :=
  if node.depth == s.max_search_depth || node.board.isGameOver then
    .cont rest s 0
  else
    let num_pv :=
      if node.depth == 0 && node.board.pos.turn == s.engine_colour then
        node.board.legalCount
      else if node.board.pos.turn == s.engine_colour then
        min node.board.legalCount s.search_pv
      else
        min node.board.legalCount 2
    let analysis := o.analyse node.board s.search_limit num_pv
    match analysis with
    | [] => .err
    | a0 :: _ =>
      let best_score := a0.score
      if node.depth == 0 && best_score < -10000 &&
          s.tactic_types.contains TT_CHECKMATE then
        let t := Tactic.make (node.sequence ++ a0.pv) best_score TT_CHECKMATE
        .ret { s with current_tactic := some t }
      else if node.board.pos.turn == s.engine_colour then
        match process_engine_moves s node.board node.depth node.sequence analysis
            rest best_score with
        | none => .err
        | some queue => .cont queue s 1
      else
        match process_player_moves s node.board node.depth node.sequence analysis
            rest best_score with
        | none => .err
        | some (queue, s2) => .cont queue s2 1

/-- The `while search_queue:` loop of `tactic_search`, with explicit fuel.  The
queries counter counts oracle `analyse` calls. -/
def searchGo (o : Oracle) : Nat → List SearchNode → EngineState → Nat → SearchOutcome
  | _, [], s, acc => .out s acc
  | 0, _ :: _, _, _ => .fuelOut
  | fuel + 1, node :: rest, s, acc =>
    match stepNode o s node rest with
    | .ret s2 => .out s2 (acc + 1)
    | .err => .err
    | .cont queue s2 dq => searchGo o fuel queue s2 (acc + dq)

/-- Fuel sufficient for any run (proved below): one unit per node weight. -/
def searchFuel (o : Oracle) (s : EngineState) : Nat :=
  (o.B + 2) ^ s.max_search_depth

/-- Model of `TacticsEngine.tactic_search`; `none` models a crash inside the loop. -/
def tactic_search (o : Oracle) (s : EngineState) : Option EngineState :=
  match searchGo o (searchFuel o s) [⟨s.board.copyStack1, 0, []⟩] s 0 with
  | .out s2 _ => some s2
  | _ => none

/-- Model of `TacticsEngine.end_tactic`. -/
def end_tactic (o : Oracle) (s : EngineState) : Option EngineState :=
  tactic_search o { s with current_tactic := none }

/-- Model of `TacticsEngine._select_tactic_move`. -/
def select_tactic_move (o : Oracle) (s : EngineState) : Option (Move × EngineState) :=
  match s.current_tactic with
  | none => none
  | some t =>
    match t.next_move with
    | none => none
    | some (m, t2) =>
      let s1 := { s with current_tactic := some t2 }
      if (t2.index : Int) > t2.max_index then
        match end_tactic o s1 with
        | none => none
        | some s2 => some (m, s2)
      else some (m, s1)

/-- Model of `TacticsEngine.play_move`. -/
def play_move (o : Oracle) (s : EngineState) : Option (Move × EngineState) :=
  match s.current_tactic with
  | some _ => select_tactic_move o s
  | none =>
    match o.analyse s.board s.normal_move_limit 2 with
    | [] => none
    | a0 :: rest =>
      let best_score := a0.score
      if best_score > 10000 then
        match a0.pv with
        | [] => none
        | m :: _ => some (m, s)
      else
        match only_move s (a0 :: rest) best_score with
        | none => none
        | some (some m) => some (m, s)
        | some none =>
          match tactic_search o s with
          | none => none
          | some s1 =>
            match s1.current_tactic with
            | some t =>
              match t.next_move with
              | none => none
              | some (m, t2) => some (m, { s1 with current_tactic := some t2 })
            | none => select_normal_move o s1

/-- Model of `TacticsEngine.undo_tactic_move`; `none` models the `AttributeError` when
no tactic is active. -/
def undo_tactic_move (o : Oracle) (s : EngineState) : Option EngineState :=
  match s.current_tactic with
  | none => none
  | some t =>
    if t.index ≥ 2 then
      some { s with current_tactic := some { t with index := t.index - 2 } }
    else if t.index == 1 then
      end_tactic o { s with current_tactic := some { t with index := t.index - 1 } }
    else
      end_tactic o s

end TacticsEngine

/-! ## Client-visible operations on a tactic record, for the cursor invariant.
`next`/`hint`/`left` are the `Tactic` methods (a `next_move` attempted past the
end raises before the cursor changes, so the state is unchanged); `undo` is
`TacticsEngine.undo_tactic_move`'s effect on the record, where `none` means
the record was discarded (`end_tactic`). -/

inductive TacticOp where
  | next
  | hint
  | left
  | undo
deriving DecidableEq

def applyOp (t : Tactic) : TacticOp → Option Tactic
  | .next =>
    match t.next_move with
    | some (_, t2) => some t2
    | none => some t
  | .hint => some t
  | .left => some t
  | .undo =>
    if t.index ≥ 2 then some { t with index := t.index - 2 }
    else none

def applyOps (ops : List TacticOp) (t : Tactic) : Option Tactic :=
  ops.foldlM applyOp t

/-- The four detectors, for properties quantified over all of them. -/
inductive DetectorKind where
  | fork
  | absolutePin
  | relativePin
  | skewer
deriving DecidableEq

def runDetector : DetectorKind → Board → Option Move → List Nat
  | .fork, b, nm => TacticSearch.fork b nm
  | .absolutePin, b, nm => TacticSearch.absolute_pin b nm
  | .relativePin, b, nm => TacticSearch.relative_pin b nm
  | .skewer, b, nm => TacticSearch.skewer b nm

/-! ## Concrete scenario data -/

/-- Build a position from a list of `(square, colour, piece type)`. -/
def mkPos (l : List (Nat × Bool × Nat)) (t : Bool) : Position :=
  l.foldl (fun p x => p.setPiece x.1 x.2.1 x.2.2) ⟨0, 0, 0, 0, 0, 0, 0, 0, t⟩

/-- White knight has just jumped c3-d5, forking the black king on c7 and rook
on e7, while the black pawn on e6 attacks the landing square d5. -/
def forkPrevPos : Position :=
  mkPos [(18, true, KNIGHT), (0, true, KING),
         (50, false, KING), (52, false, ROOK), (44, false, PAWN)] true

def forkMove : Move := ⟨18, 35, none⟩

def forkBoard : Board := ⟨forkPrevPos.apply forkMove, [(forkPrevPos, forkMove)]⟩

/-- A bare-kings position (white Ke1, black Ke8, white to move) used as the
root of the play-move scenarios. -/
def kingsPos : Position := mkPos [(4, true, KING), (60, false, KING)] true

def mv1 : Move := ⟨4, 3, none⟩
def mv2 : Move := ⟨60, 59, none⟩
def mv3 : Move := ⟨3, 2, none⟩

def kingsPos1 : Position := kingsPos.apply mv1
def kingsPos2 : Position := kingsPos1.apply mv2
def kingsPos3 : Position := kingsPos2.apply mv3

def kingsBoard : Board := ⟨kingsPos, []⟩

/-- A `TacticsEngine` state on the bare-kings board: white engine, easy-tier
difficulty thresholds, `num_pv` 3, only Checkmate enabled as a tactic kind. -/
def baseState : EngineState :=
  { board := kingsBoard
    engine_colour := true
    current_tactic := none
    tactic_types := [TT_CHECKMATE]
    max_search_depth := 20
    search_limit := ⟨none, some 14⟩
    search_pv := 5
    err_bound := 50
    only_move_bound := 300
    num_pv := 3
    min_bound := -600
    forcing_bound := 300
    normal_move_limit := ⟨some 10, some 8⟩ }

/-- Oracle for the C2 scenario: one quiet root line, then a line losing by
mate magnitude for the engine at depths 1 and 2, then a non-forcing pair. -/
def c2fn (b : Board) (_ : Limit) (_ : Nat) : List InfoDict :=
  if b.pos == kingsPos then [⟨[mv1], 0⟩]
  else if b.pos == kingsPos1 then [⟨[mv2], -20000⟩]
  else if b.pos == kingsPos2 then [⟨[mv3], -20000⟩]
  else [⟨[⟨59, 58, none⟩], -90⟩, ⟨[⟨59, 51, none⟩], -100⟩]

def c2Oracle : Oracle :=
  ⟨c2fn, 2, by intro b l k; unfold c2fn; (repeat' split) <;> decide⟩

/-- The board of the depth-1 node the C2 search expands: the root candidate
`mv1` pushed onto the root snapshot. -/
def c2ChildBoard : Board := kingsBoard.copyStack1.push mv1

/-- Oracle for the C10 (and C2-witness) scenario: a mate-magnitude losing
line under the tactic-search limit, a quiet pair under the normal limit. -/
def c10fn (_ : Board) (lim : Limit) (_ : Nat) : List InfoDict :=
  if lim == (⟨none, some 14⟩ : Limit) then [⟨[mv1], -20000⟩]
  else [⟨[mv1], 5⟩, ⟨[mv2], 0⟩]

def c10Oracle : Oracle :=
  ⟨c10fn, 2, by intro b l k; unfold c10fn; split <;> decide⟩

/-- The one-move tactic record C10's `play_move` leaves active with its cursor
already past the end of the sequence. -/
def c10Tactic : Tactic := ⟨[mv1], 0, -20000, 1, 0⟩

def mvMate : Move := ⟨4, 12, none⟩
def mvA : Move := ⟨4, 3, none⟩
def mvB : Move := ⟨60, 59, none⟩

/-- Oracle for the C1 scenario: the top line carries a mate-for-the-engine
score of 99999. -/
def c1fn (_ : Board) (_ : Limit) (_ : Nat) : List InfoDict :=
  [⟨[mvMate], 99999⟩, ⟨[mv2], 0⟩]

def c1Oracle : Oracle := ⟨c1fn, 2, by intro b l k; unfold c1fn; decide⟩

/-- C1 scenario state: a two-move tactic record is active. -/
def c1State : EngineState :=
  { baseState with current_tactic := some (Tactic.make [mvA, mvB] 100 TT_FORK) }

def mvN1 : Move := ⟨0, 1, none⟩
def mvN2 : Move := ⟨0, 8, none⟩
def mvN3 : Move := ⟨0, 9, none⟩

/-- Oracle for the C6 scenario: under the normal limit, two positive lines at
`multipv=2` and additionally a negative third line at `num_pv`; under the
search limit, a non-forcing pair, so the tactic search finds nothing. -/
def c6fn (_ : Board) (lim : Limit) (k : Nat) : List InfoDict :=
  if lim == (⟨some 10, some 8⟩ : Limit) then
    (if k == 2 then [⟨[mvN1], 50⟩, ⟨[mvN2], 30⟩]
     else [⟨[mvN1], 50⟩, ⟨[mvN2], 30⟩, ⟨[mvN3], -10⟩])
  else [⟨[⟨4, 5, none⟩], -90⟩, ⟨[⟨4, 12, none⟩], -100⟩]

def c6Oracle : Oracle :=
  ⟨c6fn, 3, by intro b l k; unfold c6fn; (repeat' split) <;> decide⟩

/-- Checkmated position (black Kh8, white Qh7, white Kg6, black to move):
`is_game_over` holds, so a tactic search from it drains immediately. -/
def matePos : Position :=
  mkPos [(63, false, KING), (55, true, QUEEN), (46, true, KING)] false

def c7fn (_ : Board) (_ : Limit) (_ : Nat) : List InfoDict := []

def c7Oracle : Oracle := ⟨c7fn, 0, by intro b l k; unfold c7fn; decide⟩

/-- C7 scenario state: a tactic record with cursor 1 on a finished board. -/
def c7State : EngineState :=
  { baseState with
    board := ⟨matePos, []⟩
    current_tactic := some (⟨[mvA, mvB], TT_FORK, 100, 1, 1⟩ : Tactic) }

open TacticsEngine

/-! ## General-purpose list lemmas -/

theorem findSome?_mem {α β : Type} {l : List α} {f : α → Option β} {b : β}
    (h : l.findSome? f = some b) : ∃ a ∈ l, f a = some b := by
  induction l with
  | nil => simp [List.findSome?_nil] at h
  | cons x xs ih =>
    rw [List.findSome?_cons] at h
    cases hfx : f x with
    | some v =>
      rw [hfx] at h
      exact ⟨x, by simp, by rw [hfx]; exact h⟩
    | none =>
      rw [hfx] at h
      obtain ⟨a, ha, hb⟩ := ih h
      exact ⟨a, by simp [ha], hb⟩

theorem mem_scanFwd {m : Nat} {s : Nat} (h : s ∈ scanFwd m) : m.testBit s := by
  have := List.mem_filter.mp h
  exact this.2

theorem mem_scanRev {m : Nat} {s : Nat} (h : s ∈ scanRev m) : m.testBit s := by
  exact mem_scanFwd (List.mem_reverse.mp h)

/-! ## C3: the cursor invariant of a tactic record -/

theorem applyOp_inv {t t2 : Tactic} {op : TacticOp}
    (h : applyOp t op = some t2) (hle : t.index ≤ t.sequence.length) :
    t2.sequence = t.sequence ∧ t2.max_index = t.max_index ∧
    t2.index ≤ t.sequence.length := by
  cases op with
  | next =>
    rw [applyOp] at h
    cases hn : t.next_move with
    | none =>
      rw [hn] at h
      cases h
      exact ⟨rfl, rfl, hle⟩
    | some pair =>
      rw [hn] at h
      cases h
      rw [Tactic.next_move] at hn
      cases hg : t.sequence.get? t.index with
      | none => rw [hg] at hn; cases hn
      | some m =>
        rw [hg] at hn
        cases hn
        refine ⟨rfl, rfl, ?_⟩
        have := List.get?_eq_some.mp hg
        exact this.choose_spec ▸ Nat.succ_le_of_lt this.choose
  | hint => rw [applyOp] at h; cases h; exact ⟨rfl, rfl, hle⟩
  | left => rw [applyOp] at h; cases h; exact ⟨rfl, rfl, hle⟩
  | undo =>
    rw [applyOp] at h
    by_cases h2 : t.index ≥ 2
    · simp only [h2, if_pos] at h
      cases h
      refine ⟨rfl, rfl, ?_⟩
      show t.index - 2 ≤ t.sequence.length
      omega
    · simp only [h2, if_neg, if_false] at h
      cases h

theorem applyOps_inv {ops : List TacticOp} {t t2 : Tactic}
    (h : applyOps ops t = some t2) (hle : t.index ≤ t.sequence.length) :
    t2.sequence = t.sequence ∧ t2.max_index = t.max_index ∧
    t2.index ≤ t.sequence.length := by
  induction ops generalizing t with
  | nil =>
    rw [applyOps, List.foldlM_nil] at h
    cases h
    exact ⟨rfl, rfl, hle⟩
  | cons op ops ih =>
    rw [applyOps, List.foldlM_cons] at h
    cases hstep : applyOp t op with
    | none => rw [hstep] at h; cases h
    | some t1 =>
      rw [hstep] at h
      replace h : applyOps ops t1 = some t2 := h
      obtain ⟨hs1, hm1, hi1⟩ := applyOp_inv hstep hle
      obtain ⟨hs2, hm2, hi2⟩ := ih (t := t1) h (by rw [hs1]; exact hi1)
      refine ⟨hs2.trans hs1, hm2.trans hm1, ?_⟩
      rw [hs1] at hi2
      exact hi2

theorem moves_left_closed_form {t : Tactic}
    (hm : t.max_index = (t.sequence.length : Int) - 1)
    (hle : t.index ≤ t.sequence.length) :
    t.moves_left = ((t.sequence.length - t.index + 1) / 2 : Nat) ∧
    0 ≤ t.moves_left := by
  rw [Tactic.moves_left, hm]
  rcases Nat.eq_or_lt_of_le hle with heq | hlt
  · rw [heq]
    have h1 : ((t.sequence.length : Int) - 1 - (t.sequence.length : Int)) = -1 := by ring
    rw [h1]
    have h2 : ((-1 : Int)).fdiv 2 + 1 = 0 := by decide
    rw [h2]
    constructor
    · have : t.sequence.length - t.sequence.length + 1 = 1 := by omega
      rw [this]
      norm_num
    · norm_num
  · set n := t.sequence.length with hn
    set i := t.index with hi
    have h1 : ((n : Int) - 1 - (i : Int)) = ((n - 1 - i : Nat) : Int) := by
      push_cast [Nat.cast_sub (by omega : 1 ≤ n), Nat.cast_sub (by omega : i ≤ n - 1)]
      omega
    rw [h1, show (2 : Int) = ((2 : Nat) : Int) by norm_cast, ← Int.ofNat_fdiv]
    constructor
    · push_cast
      omega
    · have : (0 : Int) ≤ ((n - 1 - i) / 2 : Nat) := by positivity
      omega

/-- C3: a tactic record built from a non-empty sequence keeps `0 ≤ index ≤
len(sequence)` under every interleaving of `next_move`, `hint_move`,
`moves_left` and undo operations, and `moves_left()` always equals
`ceil((len(sequence) - index) / 2) ≥ 0`. -/
theorem c3_cursor_invariant (ops : List TacticOp) (seq : List Move) (score : Int)
    (ty : Nat) (t2 : Tactic) (hseq : seq ≠ [])
    (h : applyOps ops (Tactic.make seq score ty) = some t2) :
    t2.index ≤ seq.length ∧
    t2.moves_left = ((seq.length - t2.index + 1) / 2 : Nat) ∧
    0 ≤ t2.moves_left := by
  obtain ⟨hs, hm, hi⟩ := applyOps_inv h (by simp [Tactic.make])
  simp only [Tactic.make] at hs hm hi
  have hm2 : t2.max_index = (t2.sequence.length : Int) - 1 := by
    rw [hm, hs]
  have hle : t2.index ≤ t2.sequence.length := by rw [hs]; exact hi
  obtain ⟨h1, h2⟩ := moves_left_closed_form hm2 hle
  refine ⟨hi, ?_, h2⟩
  rw [h1, hs]

/-- C3 witness: a concrete interleaving on a three-move tactic. -/
theorem c3_cursor_invariant_witness :
    ([mv1, mv2, mv3] : List Move) ≠ [] ∧
    applyOps [.next, .hint, .next, .undo, .left, .next] (Tactic.make [mv1, mv2, mv3] 7 1) =
      some ⟨[mv1, mv2, mv3], 1, 7, 1, 2⟩ ∧
    (1 : Nat) ≤ 3 ∧
    (⟨[mv1, mv2, mv3], 1, 7, 1, 2⟩ : Tactic).moves_left = ((3 - 1 + 1) / 2 : Nat) ∧
    (0 : Int) ≤ (⟨[mv1, mv2, mv3], 1, 7, 1, 2⟩ : Tactic).moves_left := by
  refine ⟨by decide, by decide, ?_⟩
  have := c3_cursor_invariant [.next, .hint, .next, .undo, .left, .next]
    [mv1, mv2, mv3] 7 1 ⟨[mv1, mv2, mv3], 1, 7, 1, 2⟩ (by decide) (by decide)
  simpa using this

/-! ## C10: partiality of `next_move`/`hint_move` and reachability of the
out-of-range cursor -/

/-- C10: `next_move` and `hint_move` succeed exactly when the cursor is inside
the sequence (they raise once `index = len(sequence)`), a successful
`next_move` returns `sequence[index]` and advances the cursor by exactly 1,
and the out-of-range state is reachable with the record still current:
`play_move` consumes the first move of a freshly found one-move tactic with no
completion check, leaving it active with `index = len(sequence)`. -/
theorem c10_next_move_partiality :
    (∀ t : Tactic, (t.next_move.isSome ↔ t.index < t.sequence.length) ∧
       (t.hint_move.isSome ↔ t.index < t.sequence.length)) ∧
    (∀ (t : Tactic) (m : Move) (t2 : Tactic), t.next_move = some (m, t2) →
       t.sequence.get? t.index = some m ∧ t2.index = t.index + 1) ∧
    ((play_move c10Oracle baseState).map (fun x => (x.1, x.2.current_tactic)) =
       some (mv1, some c10Tactic) ∧
     c10Tactic.index = c10Tactic.sequence.length ∧
     c10Tactic.next_move = none ∧ c10Tactic.hint_move = none) := by
  refine ⟨?_, ?_, by decide, by decide, by decide, by decide⟩
  · intro t
    have hbase : (t.sequence.get? t.index).isSome ↔ t.index < t.sequence.length := by
      constructor
      · intro h
        by_contra hlt
        rw [List.get?_eq_none.mpr (by omega)] at h
        simp at h
      · intro h
        rw [List.get?_eq_some.mpr ⟨h, rfl⟩]
        rfl
    constructor
    · cases hg : t.sequence.get? t.index with
      | none =>
        rw [hg] at hbase
        rw [Tactic.next_move, hg]
        simpa using hbase
      | some m =>
        rw [hg] at hbase
        rw [Tactic.next_move, hg]
        simpa using hbase
    · rw [Tactic.hint_move]
      exact hbase
  · intro t m t2 h
    rw [Tactic.next_move] at h
    cases hg : t.sequence.get? t.index with
    | none => rw [hg] at h; cases h
    | some m0 =>
      rw [hg] at h
      cases h
      exact ⟨rfl, rfl⟩

/-- C10 witness: the partiality interface applied to a concrete two-move
record. -/
theorem c10_next_move_partiality_witness :
    (Tactic.make [mv1, mv2] 0 1).sequence.get? 0 = some mv1 ∧
    (Tactic.make [mv1, mv2] 0 1).next_move.isSome = true := by
  refine ⟨?_, ?_⟩
  · exact (c10_next_move_partiality.2.1 (Tactic.make [mv1, mv2] 0 1) mv1
      ⟨[mv1, mv2], 1, 0, 1, 1⟩ (by decide)).1
  · exact (c10_next_move_partiality.1 (Tactic.make [mv1, mv2] 0 1)).1.mpr (by decide)

/-! ## C7: the undo (rewind-by-2) rule -/

/-- C7 counterexample: with the cursor at 1 the record is NOT merely rewound
to 0 and kept — it is discarded entirely (the state ends with no current
tactic), contradicting "the record is discarded only when the cursor is 0". -/
theorem c7_counterexample :
    c7State.current_tactic = some (⟨[mvA, mvB], TT_FORK, 100, 1, 1⟩ : Tactic) ∧
    undo_tactic_move c7Oracle c7State = some { c7State with current_tactic := none } := by
  exact ⟨rfl, by decide⟩

/-- C7 amended: if the cursor is ≥ 2 it is decremented by 2 and the same
record remains current; if the cursor is 0 or 1 the record is discarded and a
fresh tactic search from the current position decides the next state. -/
theorem c7_amended_undo_rule : ∀ (o : Oracle) (s : EngineState) (t : Tactic),
    s.current_tactic = some t →
    (2 ≤ t.index → undo_tactic_move o s =
       some { s with current_tactic := some { t with index := t.index - 2 } }) ∧
    (t.index ≤ 1 → undo_tactic_move o s =
       tactic_search o { s with current_tactic := none }) := by
  intro o s t h
  constructor
  · intro h2
    simp only [undo_tactic_move, h]
    rw [if_pos h2]
  · intro h1
    simp only [undo_tactic_move, h]
    have hlt : ¬ t.index ≥ 2 := by omega
    rw [if_neg hlt]
    by_cases h0 : t.index = 1
    · simp only [h0, beq_self_eq_true, if_true]
      rw [end_tactic]
    · have hne : (t.index == 1) = false := by
        simp only [beq_eq_false_iff_ne, ne_eq]
        exact h0
      rw [hne]
      simp only [Bool.false_eq_true, if_false]
      rw [end_tactic]

/-- C7 witness: both undo branches on concrete states. -/
theorem c7_amended_undo_rule_witness :
    undo_tactic_move c7Oracle
        { c7State with current_tactic := some (⟨[mvA, mvB], TT_FORK, 100, 3, 1⟩ : Tactic) } =
      some { c7State with current_tactic := some (⟨[mvA, mvB], TT_FORK, 100, 1, 1⟩ : Tactic) } ∧
    undo_tactic_move c7Oracle c7State =
      tactic_search c7Oracle { c7State with current_tactic := none } := by
  constructor
  · exact (c7_amended_undo_rule c7Oracle
      { c7State with current_tactic := some (⟨[mvA, mvB], TT_FORK, 100, 3, 1⟩ : Tactic) }
      (⟨[mvA, mvB], TT_FORK, 100, 3, 1⟩ : Tactic) rfl).1 (by decide)
  · exact (c7_amended_undo_rule c7Oracle c7State
      (⟨[mvA, mvB], TT_FORK, 100, 1, 1⟩ : Tactic) rfl).2 (by decide)

/-! ## C1: the per-turn decision order of `play_move` -/

/-- C1 counterexample: a tactic record is active AND the oracle's top score
(99999) is beyond the mate threshold, yet `play_move` returns the tactic's
next move `mvA`, not the mate line's first move `mvMate` — the Active-tactic
consumption precedes the forced-mate check, not the other way round. -/
theorem c1_counterexample :
    c1State.current_tactic = some (Tactic.make [mvA, mvB] 100 TT_FORK) ∧
    c1Oracle.analyse c1State.board c1State.normal_move_limit 2 =
      [⟨[mvMate], 99999⟩, ⟨[mv2], 0⟩] ∧
    (10000 : Int) < 99999 ∧
    (play_move c1Oracle c1State).map (·.1) = some mvA ∧
    mvA ≠ mvMate := by
  exact ⟨rfl, rfl, by norm_num, by decide, by decide⟩

/-- C1 amended: the actual decision order consults the Active tactic first:
whenever a tactic is active, any move `play_move` returns is that tactic's
next move (`sequence[index]`), whatever the oracle reports; the forced-mate
shortcut (top score beyond 10000) applies only when no tactic is active. -/
theorem c1_amended_decision_order :
    (∀ (o : Oracle) (s : EngineState) (t : Tactic) (m : Move) (s2 : EngineState),
       s.current_tactic = some t → play_move o s = some (m, s2) →
       t.sequence.get? t.index = some m) ∧
    (∀ (o : Oracle) (s : EngineState) (a0 : InfoDict) (rest : List InfoDict)
       (m : Move) (pvr : List Move),
       s.current_tactic = none →
       o.analyse s.board s.normal_move_limit 2 = a0 :: rest →
       10000 < a0.score → a0.pv = m :: pvr →
       play_move o s = some (m, s)) := by
  constructor
  · intro o s t m s2 hct h
    simp only [play_move, hct, select_tactic_move] at h
    cases hnm : t.next_move with
    | none => rw [hnm] at h; simp at h
    | some p =>
      obtain ⟨pm, pt⟩ := p
      have hget : t.sequence.get? t.index = some pm := by
        rw [Tactic.next_move] at hnm
        cases hg : t.sequence.get? t.index with
        | none => rw [hg] at hnm; cases hnm
        | some m0 => rw [hg] at hnm; cases hnm; rfl
      rw [hnm] at h
      dsimp only at h
      by_cases hdone : ((pt.index : Int) > pt.max_index)
      · rw [if_pos hdone] at h
        cases he : end_tactic o { s with current_tactic := some pt } with
        | none => rw [he] at h; simp at h
        | some s3 => rw [he] at h; cases h; exact hget
      · rw [if_neg hdone] at h
        cases h
        exact hget
  · intro o s a0 rest m pvr hct han hsc hpv
    simp only [play_move, hct, han]
    rw [if_pos (by omega : a0.score > 10000)]
    simp only [hpv]

/-- C1 witness: both branches of the decision-order characterization at
concrete inputs. -/
theorem c1_amended_decision_order_witness :
    (Tactic.make [mvA, mvB] 100 TT_FORK).sequence.get? 0 = some mvA ∧
    play_move c1Oracle baseState = some (mvMate, baseState) := by
  constructor
  · exact c1_amended_decision_order.1 c1Oracle c1State _ mvA
      { c1State with current_tactic := some (⟨[mvA, mvB], TT_FORK, 100, 1, 1⟩ : Tactic) }
      rfl (by decide)
  · exact c1_amended_decision_order.2 c1Oracle baseState ⟨[mvMate], 99999⟩
      [⟨[mv2], 0⟩] mvMate [] rfl rfl (by norm_num) rfl

/-! ## C2: when the mate-magnitude check fires inside `tactic_search` -/

/-- C2 counterexample: the search dequeues the depth-1 node `c2ChildBoard`
(the root candidate `mv1` pushed onto the root snapshot), whose analysis is a
single line scoring -20000 (beyond the mate threshold) while Checkmate is an
enabled kind — yet no Checkmate record is materialized and the search
terminates having found nothing, because the check is applied only at depth
0. -/
theorem c2_counterexample :
    baseState.tactic_types.contains TT_CHECKMATE = true ∧
    c2ChildBoard = kingsBoard.copyStack1.push mv1 ∧
    c2Oracle.analyse c2ChildBoard baseState.search_limit 2 = [⟨[mv2], -20000⟩] ∧
    (-20000 : Int) < -10000 ∧
    tactic_search c2Oracle baseState = some baseState := by
  refine ⟨rfl, rfl, rfl, by norm_num, by decide⟩

/-- C2 amended: the mate-magnitude materialization happens only at the root
node (depth 0): if the root analysis scores below -10000 and Checkmate is
enabled, a Checkmate record built from the root principal variation is
installed and the whole search returns at once. -/
theorem c2_amended_root_checkmate :
    ∀ (o : Oracle) (s : EngineState) (a0 : InfoDict) (rest : List InfoDict),
    s.max_search_depth ≠ 0 →
    s.board.copyStack1.isGameOver = false →
    (∀ k, o.analyse s.board.copyStack1 s.search_limit k = a0 :: rest) →
    a0.score < -10000 →
    s.tactic_types.contains TT_CHECKMATE = true →
    tactic_search o s =
      some { s with current_tactic := some (Tactic.make a0.pv a0.score TT_CHECKMATE) } := by
  intro o s a0 rest hdepth hgame han hscore htypes
  have hstep : stepNode o s ⟨s.board.copyStack1, 0, []⟩ [] =
      .ret { s with current_tactic := some (Tactic.make a0.pv a0.score TT_CHECKMATE) } := by
    rw [stepNode]
    have hc1 : ¬ (((⟨s.board.copyStack1, 0, []⟩ : SearchNode).depth == s.max_search_depth ||
        (⟨s.board.copyStack1, 0, []⟩ : SearchNode).board.isGameOver) = true) := by
      dsimp only
      rw [hgame]
      simp only [Bool.or_false, beq_iff_eq]
      omega
    rw [if_neg hc1]
    dsimp only
    rw [han]
    dsimp only
    rw [if_pos (by rw [htypes]; simp [hscore])]
    simp [Tactic.make]
  have hpos : 0 < searchFuel o s := Nat.pos_pow_of_pos _ (by omega)
  obtain ⟨f, hf⟩ : ∃ f, searchFuel o s = f + 1 :=
    ⟨searchFuel o s - 1, by omega⟩
  rw [tactic_search, hf]
  rw [searchGo, hstep]

/-- C2 witness: the root-checkmate materialization on a concrete oracle. -/
theorem c2_amended_root_checkmate_witness :
    baseState.max_search_depth ≠ 0 ∧
    baseState.board.copyStack1.isGameOver = false ∧
    tactic_search c10Oracle baseState =
      some { baseState with
             current_tactic := some (Tactic.make [mv1] (-20000) TT_CHECKMATE) } := by
  refine ⟨by decide, by decide, ?_⟩
  exact c2_amended_root_checkmate c10Oracle baseState ⟨[mv1], -20000⟩ []
    (by decide) (by decide) (fun k => rfl) (by norm_num) (by decide)

/-! ## C6: the non-tactical fallback move -/

/-- C6 counterexample: with no forced mate, no obvious move, no active tactic
and an empty-handed search, `play_move` returns `mvN3`, the first line with a
non-positive score (-10), even though non-negative alternatives (50 and 30)
exist; the claim's "lowest non-negative evaluation" move would be `mvN2`. -/
theorem c6_counterexample :
    baseState.current_tactic = none ∧
    c6Oracle.analyse baseState.board baseState.normal_move_limit baseState.num_pv =
      [⟨[mvN1], 50⟩, ⟨[mvN2], 30⟩, ⟨[mvN3], -10⟩] ∧
    (play_move c6Oracle baseState).map (·.1) = some mvN3 ∧
    (-10 : Int) < 0 ∧ (0 : Int) ≤ 30 ∧ (0 : Int) ≤ 50 ∧
    mvN3 ≠ mvN2 ∧ mvN3 ≠ mvN1 := by
  exact ⟨rfl, rfl, by decide, by norm_num, by norm_num, by norm_num, by decide, by decide⟩

/-- C6 amended: the fallback loop returns the first (best-ranked) principal
variation whose score is ≤ 0, and when every line scores positive it returns
the last (worst-ranked) line's move — not the outright best one. -/
theorem c6_amended_fallback_choice :
    ∀ (l : List InfoDict) (acc : Option Move), (∀ d ∈ l, d.pv ≠ []) →
    normalLoop l acc =
      (match l.find? (fun d => decide (d.score ≤ 0)) with
       | some d => d.pv.head?
       | none =>
         match l.getLast? with
         | some d => d.pv.head?
         | none => acc) := by
  intro l
  induction l with
  | nil => intro acc hpv; simp [normalLoop]
  | cons d rest ih =>
    intro acc hpv
    cases hdp : d.pv with
    | nil => exact absurd hdp (hpv d (by simp))
    | cons m pvr =>
      rw [normalLoop, hdp]
      dsimp only
      by_cases hsc : d.score ≤ 0
      · rw [if_pos hsc]
        rw [List.find?_cons_of_pos _ (by simpa using hsc)]
        simp [hdp]
      · rw [if_neg hsc]
        rw [List.find?_cons_of_neg _ (by simpa using hsc)]
        rw [ih (some m) (fun x hx => hpv x (by simp [hx]))]
        cases hf : rest.find? (fun d => decide (d.score ≤ 0)) with
        | some d2 => rfl
        | none =>
          cases rest with
          | nil => simp [hdp]
          | cons r rs =>
            rw [List.getLast?_cons_cons]
            cases hl : (r :: rs).getLast? with
            | none => simp at hl
            | some d2 => rfl

/-- C6 witness: the fallback characterization on the concrete analysis list. -/
theorem c6_amended_fallback_choice_witness :
    normalLoop [⟨[mvN1], 50⟩, ⟨[mvN2], 30⟩, ⟨[mvN3], -10⟩] none = some mvN3 ∧
    normalLoop [⟨[mvN1], 50⟩, ⟨[mvN2], 30⟩] none = some mvN2 := by
  constructor
  · rw [c6_amended_fallback_choice _ none (by decide)]
    rfl
  · rw [c6_amended_fallback_choice _ none (by decide)]
    rfl

/-! ## C4: what the fork detector actually requires -/

/-- C4 counterexample: `fork` reports the royal fork [c7, e7] even though the
knight's landing square d5 (35) IS attacked by the opponent (the black pawn on
e6) — the "landed on a square not currently attacked" condition is not
enforced (no follow-up move was supplied, so no capture check runs at all). -/
theorem c4_counterexample :
    TacticSearch.fork forkBoard none = [50, 52] ∧
    forkBoard.peek = some forkMove ∧
    forkMove.toSquare = 35 ∧
    forkBoard.pos.isAttackedBy forkBoard.pos.turn 35 = true := by
  exact ⟨by decide, rfl, rfl, by decide⟩

theorem king_in_forked {p : Position} {fv : Int} {attacked : Nat}
    (h : (scanFwd attacked).any (fun square => p.pieceTypeAt square == some KING) = true) :
    ∃ s ∈ (scanFwd attacked).filter (TacticSearch.forkTargetCheck p fv),
      p.pieceTypeAt s = some KING := by
  obtain ⟨s, hs, hk⟩ := List.any_eq_true.mp h
  refine ⟨s, List.mem_filter.mpr ⟨hs, ?_⟩, by simpa using hk⟩
  rw [TacticSearch.forkTargetCheck]
  simp [hk]

/-- C4 amended: a non-empty fork report requires only that the last-moved
piece attacks at least 2 enemy pieces and that every reported square holds a
piece that is the enemy king, or outvalues the forking piece, or has more
attackers than defenders (not "zero defenders"), with at least two such
targets or the king among them; no condition on the landing square being
unattacked is imposed (the capture check runs only when a supplied follow-up
move captures the forking piece and it is undefended). -/
theorem c4_amended_fork_conditions :
    ∀ (b : Board) (nm : Option Move) (l : List Nat),
    TacticSearch.fork b nm = l → l ≠ [] →
    ∃ fm, b.peek = some fm ∧
      2 ≤ bitCount (b.pos.attacksFrom fm.toSquare &&& b.pos.occCo b.pos.turn) ∧
      (∀ s ∈ l, TacticSearch.forkTargetCheck b.pos (b.pos.valueAt fm.toSquare) s = true) ∧
      (2 ≤ l.length ∨ ∃ s ∈ l, b.pos.pieceTypeAt s = some KING) := by
  intro b nm l hfork hne
  rw [TacticSearch.fork] at hfork
  cases hpeek : b.peek with
  | none =>
    rw [hpeek] at hfork
    exact absurd hfork.symm hne
  | some fm =>
    rw [hpeek] at hfork
    dsimp only at hfork
    refine ⟨fm, rfl, ?_⟩
    split at hfork
    · exact absurd hfork.symm hne
    · split at hfork
      · exact absurd hfork.symm hne
      · rename_i hcap hcnt
        have h2 : 2 ≤ bitCount (b.pos.attacksFrom fm.toSquare &&& b.pos.occCo b.pos.turn) := by
          omega
        refine ⟨h2, ?_⟩
        split at hfork
        · exact absurd hfork.symm hne
        · rename_i hguard
          have hguard2 : 2 ≤ ((scanFwd (b.pos.attacksFrom fm.toSquare &&& b.pos.occCo b.pos.turn)).filter
                (TacticSearch.forkTargetCheck b.pos (b.pos.valueAt fm.toSquare))).length ∨
              (scanFwd (b.pos.attacksFrom fm.toSquare &&& b.pos.occCo b.pos.turn)).any
                (fun square => b.pos.pieceTypeAt square == some KING) = true := by
            cases hkf : (scanFwd (b.pos.attacksFrom fm.toSquare &&& b.pos.occCo b.pos.turn)).any
                (fun square => b.pos.pieceTypeAt square == some KING) with
            | true => exact Or.inr rfl
            | false =>
              left
              rw [hkf] at hguard
              simp only [Bool.not_false, Bool.and_true, decide_eq_true_eq] at hguard
              omega
          have hfilter : ∀ l2 : List Nat,
              ((scanFwd (b.pos.attacksFrom fm.toSquare &&& b.pos.occCo b.pos.turn)).filter
                (TacticSearch.forkTargetCheck b.pos (b.pos.valueAt fm.toSquare))) = l2 →
              (∀ s ∈ l2, TacticSearch.forkTargetCheck b.pos (b.pos.valueAt fm.toSquare) s = true) ∧
              (2 ≤ l2.length ∨ ∃ s ∈ l2, b.pos.pieceTypeAt s = some KING) := by
            intro l2 hl2
            constructor
            · intro s hs
              exact (List.mem_filter.mp (hl2 ▸ hs)).2
            · rcases hguard2 with hlen | hking
              · left
                rw [← hl2]
                exact hlen
              · right
                rw [← hl2]
                exact king_in_forked hking
          split at hfork
          · -- next_move = none
            split at hfork
            · exact absurd hfork.symm hne
            · exact hfilter l hfork
          · -- next_move = some nm2
            split at hfork
            · exact hfilter l hfork
            · split at hfork <;> split at hfork <;>
                first
                  | exact absurd hfork.symm hne
                  | exact hfilter l hfork

/-- C4 witness: the amended conditions instantiated on the royal-fork board. -/
theorem c4_amended_fork_conditions_witness :
    2 ≤ bitCount (forkBoard.pos.attacksFrom forkMove.toSquare &&&
        forkBoard.pos.occCo forkBoard.pos.turn) ∧
    TacticSearch.forkTargetCheck forkBoard.pos
      (forkBoard.pos.valueAt forkMove.toSquare) 50 = true ∧
    TacticSearch.forkTargetCheck forkBoard.pos
      (forkBoard.pos.valueAt forkMove.toSquare) 52 = true := by
  obtain ⟨fm, hfm, h1, h2, h3⟩ :=
    c4_amended_fork_conditions forkBoard none [50, 52] (by decide) (by decide)
  have heq : fm = forkMove := by
    have h4 : (some fm : Option Move) = some forkMove := hfm.symm.trans rfl
    cases h4
    rfl
  subst heq
  exact ⟨h1, h2 50 (by decide), h2 52 (by decide)⟩

/-! ## C5 groundwork: bit-level lemmas and the colour of pushed pieces -/

theorem bbSquare_eq_pow (s : Nat) : bbSquare s = 2 ^ s := by
  rw [bbSquare, Nat.shiftLeft_eq, Nat.one_mul]

theorem testBit_bbSquare (s j : Nat) : (bbSquare s).testBit j = decide (s = j) := by
  rw [bbSquare_eq_pow, Nat.testBit_two_pow]

theorem testBit_bbNot {m j : Nat} (hj : j < 64) :
    (bbNot m).testBit j = !(m.testBit j) := by
  rw [bbNot, Nat.testBit_xor, show BB_ALL = 2 ^ 64 - 1 by decide,
    Nat.testBit_two_pow_sub_one]
  simp [hj, Bool.true_xor]

theorem testBit_clearBitN {m i j : Nat} (hj : j < 64) :
    (clearBitN m i).testBit j = (m.testBit j && !(decide (i = j))) := by
  rw [clearBitN, Nat.testBit_and, testBit_bbNot hj, testBit_bbSquare]

theorem disjoint_testBit {w b j : Nat} (h : w &&& b = 0)
    (hw : w.testBit j = true) : b.testBit j = false := by
  by_contra hb
  have hb2 : b.testBit j = true := by
    cases hbv : b.testBit j
    · exact absurd hbv hb
    · rfl
  have : (w &&& b).testBit j = true := by
    rw [Nat.testBit_and, hw, hb2]
    rfl
  rw [h] at this
  simp at this

theorem mem_scanFwd_lt {m s : Nat} (h : s ∈ scanFwd m) : s < 64 :=
  List.mem_range.mp (List.mem_filter.mp h).1

theorem mem_scanRev_lt {m s : Nat} (h : s ∈ scanRev m) : s < 64 :=
  mem_scanFwd_lt (List.mem_reverse.mp h)

theorem apply_turn (p : Position) (m : Move) : (p.apply m).turn = !p.turn := by
  rw [Position.apply]
  split <;> rfl

theorem promoteExpand_fromSquare {c : Bool} {s t : Nat} {m : Move}
    (h : m ∈ promoteExpand c s t) : m.fromSquare = s := by
  rw [promoteExpand] at h
  split at h <;> split at h <;>
    simp only [List.mem_cons, List.not_mem_nil, or_false] at h
  · rcases h with rfl | rfl | rfl | rfl <;> rfl
  · subst h
    rfl
  · rcases h with rfl | rfl | rfl | rfl <;> rfl
  · subst h
    rfl

theorem pseudoMovesAt_fromSquare {p : Position} {s : Nat} {m : Move}
    (h : m ∈ pseudoMovesAt p s) : m.fromSquare = s := by
  rw [pseudoMovesAt] at h
  split at h
  · simp at h
  · split at h
    · obtain ⟨t2, _, hm⟩ := List.mem_flatMap.mp h
      exact promoteExpand_fromSquare hm
    · obtain ⟨u, _, hm⟩ := List.mem_map.mp h
      cases hm
      rfl

theorem legal_move_from_turn {p : Position} {m : Move} (h : m ∈ legalMovesP p) :
    (p.occCo p.turn).testBit m.fromSquare = true := by
  rw [legalMovesP] at h
  have h1 : m ∈ pseudoMoves p := (List.mem_filter.mp h).1
  rw [pseudoMoves] at h1
  obtain ⟨s, hs, hm⟩ := List.mem_flatMap.mp h1
  rw [pseudoMovesAt_fromSquare hm]
  exact mem_scanFwd hs

/-! Every square a detector reports holds a piece of the side to move. -/

theorem mem_masked_scanRev {mask extra s : Nat} (h : s ∈ scanRev (mask &&& extra)) :
    mask.testBit s = true ∧ s < 64 := by
  have h1 := mem_scanRev h
  rw [Nat.testBit_and] at h1
  exact ⟨(Bool.and_eq_true _ _ |>.mp h1).1, mem_scanRev_lt h⟩

theorem mem_masked_scanFwd {mask extra s : Nat} (h : s ∈ scanFwd (mask &&& extra)) :
    mask.testBit s = true ∧ s < 64 := by
  have h1 := mem_scanFwd h
  rw [Nat.testBit_and] at h1
  exact ⟨(Bool.and_eq_true _ _ |>.mp h1).1, mem_scanFwd_lt h⟩

theorem absolute_pin_mem {b : Board} {nm : Option Move} {s : Nat}
    (h : s ∈ TacticSearch.absolute_pin b nm) :
    (b.pos.occCo b.pos.turn).testBit s = true ∧ s < 64 := by
  rw [TacticSearch.absolute_pin] at h
  cases hl : b.lastPos with
  | none => rw [hl] at h; simp at h
  | some lastp =>
    rw [hl] at h
    dsimp only at h
    split at h
    · rename_i sq heq
      have hmem := List.mem_of_find?_eq_some heq
      have hs : s = sq := by simpa using h
      subst hs
      exact mem_masked_scanRev hmem
    · simp at h

theorem relativePinBody_eq {p lastp : Position} {nm : Option Move}
    {vs pin x : Nat} (h : TacticSearch.relativePinBody p lastp nm vs pin = some x) :
    x = pin := by
  rw [TacticSearch.relativePinBody] at h
  repeat' split at h
  all_goals (cases h <;> rfl)

theorem relative_pin_mem {b : Board} {nm : Option Move} {s : Nat}
    (h : s ∈ TacticSearch.relative_pin b nm) :
    (b.pos.occCo b.pos.turn).testBit s = true ∧ s < 64 := by
  rw [TacticSearch.relative_pin] at h
  cases hl : b.lastPos with
  | none => rw [hl] at h; simp at h
  | some lastp =>
    rw [hl] at h
    dsimp only at h
    split at h
    · rename_i sq heq
      obtain ⟨vs, _, hinner⟩ := findSome?_mem heq
      obtain ⟨pin, hpinmem, hbody⟩ := findSome?_mem hinner
      have hx := relativePinBody_eq hbody
      have hs : s = sq := by simpa using h
      subst hs
      rw [hx]
      exact mem_masked_scanRev hpinmem
    · simp at h

set_option maxHeartbeats 1000000 in
theorem skewerBody_sub {b : Board} {nm : Option Move} {sk vs : Nat} {l : List Nat}
    (h : TacticSearch.skewerBody b nm sk vs = some l) :
    l = [] ∨ l = [sk] := by
  delta TacticSearch.skewerBody at h
  dsimp only at h
  repeat' split at h
  all_goals (cases h <;> simp)

theorem skewer_mem {b : Board} {nm : Option Move} {s : Nat}
    (h : s ∈ TacticSearch.skewer b nm) :
    (b.pos.occCo b.pos.turn).testBit s = true ∧ s < 64 := by
  rw [TacticSearch.skewer] at h
  split at h
  · simp at h
  · dsimp only at h
    split at h
    · rename_i result heq
      obtain ⟨sk, hskmem, hinner⟩ := findSome?_mem heq
      obtain ⟨vs, _, hbody⟩ := findSome?_mem hinner
      rcases skewerBody_sub hbody with rfl | rfl
      · simp at h
      · have hs : s = sk := by simpa using h
        subst hs
        exact mem_masked_scanRev hskmem
    · simp at h

theorem fork_mem {b : Board} {nm : Option Move} {s : Nat}
    (h : s ∈ TacticSearch.fork b nm) :
    (b.pos.occCo b.pos.turn).testBit s = true ∧ s < 64 := by
  rw [TacticSearch.fork] at h
  cases hpeek : b.peek with
  | none => rw [hpeek] at h; simp at h
  | some fm =>
    rw [hpeek] at h
    dsimp only at h
    have hconc : ∀ (h2 : s ∈ (scanFwd (b.pos.attacksFrom fm.toSquare &&&
        b.pos.occCo b.pos.turn)).filter
          (TacticSearch.forkTargetCheck b.pos (b.pos.valueAt fm.toSquare))),
        (b.pos.occCo b.pos.turn).testBit s = true ∧ s < 64 := by
      intro h2
      have h3 := (List.mem_filter.mp h2).1
      have h4 := mem_scanFwd h3
      rw [Nat.testBit_and] at h4
      exact ⟨(Bool.and_eq_true _ _ |>.mp h4).2, mem_scanFwd_lt h3⟩
    split at h
    · simp at h
    · split at h
      · simp at h
      · split at h
        · simp at h
        · split at h
          · split at h
            · simp at h
            · exact hconc h
          · split at h
            · exact hconc h
            · split at h <;> split at h <;>
                first
                  | exact hconc h
                  | simp at h

theorem runDetector_mem {dk : DetectorKind} {b : Board} {nm : Option Move} {s : Nat}
    (h : s ∈ runDetector dk b nm) :
    (b.pos.occCo b.pos.turn).testBit s = true ∧ s < 64 := by
  cases dk with
  | fork => exact fork_mem h
  | absolutePin => exact absolute_pin_mem h
  | relativePin => exact relative_pin_mem h
  | skewer => exact skewer_mem h

/-- After the side to move pushes a move, no square that held one of its
pieces can hold an opponent piece: the moved piece keeps its colour and
captures only remove opponent pieces. -/
theorem apply_no_opponent_piece {p : Position} {m : Move} {s : Nat}
    (hdisj : p.white &&& p.black = 0)
    (hfrom : (p.occCo p.turn).testBit m.fromSquare = true)
    (hs : (p.occCo p.turn).testBit s = true)
    (hs64 : s < 64) :
    ((p.apply m).occCo (!p.turn)).testBit s = false := by
  cases hturn : p.turn with
  | true =>
    rw [hturn] at hfrom hs
    have hw : p.white.testBit m.fromSquare = true := by
      simpa [Position.occCo] using hfrom
    have hws : p.white.testBit s = true := by
      simpa [Position.occCo] using hs
    have hbs : p.black.testBit s = false := disjoint_testBit hdisj hws
    have hcol : p.colorAt m.fromSquare = some true := by
      rw [Position.colorAt, if_pos hw]
    rw [Position.apply, hturn]
    cases hpt : p.pieceTypeAt m.fromSquare with
    | none =>
      simp only [hpt, hcol, Position.occCo, Bool.not_true]
      exact hbs
    | some t =>
      simp only [hpt, hcol, Position.setPiece, Position.clearSquare, Position.occCo,
        Bool.not_true, if_true, Bool.false_eq_true, if_false]
      rw [testBit_clearBitN hs64, testBit_clearBitN hs64, hbs]
      rfl
  | false =>
    rw [hturn] at hfrom hs
    have hb : p.black.testBit m.fromSquare = true := by
      simpa [Position.occCo] using hfrom
    have hbs : p.black.testBit s = true := by
      simpa [Position.occCo] using hs
    have hws : p.white.testBit s = false := by
      by_contra hw2
      have hw3 : p.white.testBit s = true := by
        cases hv : p.white.testBit s
        · exact absurd hv hw2
        · rfl
      rw [disjoint_testBit hdisj hw3] at hbs
      cases hbs
    have hwf : p.white.testBit m.fromSquare = false := by
      by_contra hw2
      have hw3 : p.white.testBit m.fromSquare = true := by
        cases hv : p.white.testBit m.fromSquare
        · exact absurd hv hw2
        · rfl
      rw [disjoint_testBit hdisj hw3] at hb
      cases hb
    have hcol : p.colorAt m.fromSquare = some false := by
      rw [Position.colorAt, if_neg (by rw [hwf]; exact Bool.false_ne_true), if_pos hb]
    rw [Position.apply, hturn]
    cases hpt : p.pieceTypeAt m.fromSquare with
    | none =>
      simp only [hpt, hcol, Position.occCo, Bool.not_false, if_true]
      exact hws
    | some t =>
      simp only [hpt, hcol, Position.setPiece, Position.clearSquare, Position.occCo,
        Bool.not_false, if_true, Bool.false_eq_true, if_false]
      rw [testBit_clearBitN hs64, testBit_clearBitN hs64, hws]
      rfl

/-- C5: for every one of the four detectors, a square reported before a legal
move is never reported again immediately after that move is pushed: the
detectors only report squares of the side to move, and one ply later the side
to move has flipped, so the same square cannot be re-flagged. -/
theorem c5_no_duplicate_reflag :
    ∀ (dk : DetectorKind) (b : Board) (m : Move) (nm nm2 : Option Move) (s : Nat),
    b.pos.white &&& b.pos.black = 0 →
    m ∈ legalMovesP b.pos →
    s ∈ runDetector dk b nm →
    s ∉ runDetector dk (b.push m) nm2 := by
  intro dk b m nm nm2 s hdisj hlegal hmem hmem2
  obtain ⟨h1, h64⟩ := runDetector_mem hmem
  obtain ⟨h2, _⟩ := runDetector_mem hmem2
  have hpush : (b.push m).pos = b.pos.apply m := rfl
  rw [hpush, apply_turn] at h2
  have h3 := apply_no_opponent_piece hdisj (legal_move_from_turn hlegal) h1 h64
  rw [h2] at h3
  cases h3

/-- C5 witness: the royal fork reported on `forkBoard` is not re-reported
after Black answers with the legal king move c7-d6. -/
theorem c5_no_duplicate_reflag_witness :
    50 ∈ runDetector .fork forkBoard none ∧
    50 ∉ runDetector .fork (forkBoard.push ⟨50, 43, none⟩) none := by
  constructor
  · decide
  · exact c5_no_duplicate_reflag .fork forkBoard ⟨50, 43, none⟩ none none 50
      (by decide) (by decide) (by decide)

/-! ## C8/C9 groundwork: the shape of one search iteration -/

theorem process_engine_moves_shape {s : EngineState} {b : Board} {d : Nat}
    {seq : List Move} {best : Int} :
    ∀ {analysis : List InfoDict} {queue res : List SearchNode},
    process_engine_moves s b d seq analysis queue best = some res →
    ∃ extra, res = queue ++ extra ∧ extra.length ≤ analysis.length ∧
      ∀ n ∈ extra, n.depth = d + 1 := by
  intro analysis
  induction analysis with
  | nil =>
    intro queue res h
    rw [process_engine_moves, List.foldlM_nil] at h
    cases h
    exact ⟨[], by simp⟩
  | cons info rest ih =>
    intro queue res h
    rw [process_engine_moves, List.foldlM_cons] at h
    try dsimp only at h
    cases hpv : info.pv with
    | nil => rw [hpv] at h; cases h
    | cons mv pvr =>
      rw [hpv] at h
      try dsimp only at h
      split at h
      · replace h : process_engine_moves s b d seq rest
            (queue ++ [⟨b.copyStack1.push mv, d + 1, seq ++ [mv]⟩]) best = some res := h
        obtain ⟨extra, hres, hlen, hdep⟩ := ih h
        refine ⟨⟨b.copyStack1.push mv, d + 1, seq ++ [mv]⟩ :: extra, ?_, ?_, ?_⟩
        · rw [hres, List.append_assoc]
          rfl
        · simp only [List.length_cons]
          omega
        · intro n hn
          rcases List.mem_cons.mp hn with rfl | hn2
          · rfl
          · exact hdep n hn2
      · replace h : process_engine_moves s b d seq rest queue best = some res := h
        obtain ⟨extra, hres, hlen, hdep⟩ := ih h
        exact ⟨extra, hres, by simp only [List.length_cons]; omega, hdep⟩

theorem process_player_moves_shape {s : EngineState} {b : Board} {d : Nat}
    {seq : List Move} {analysis : List InfoDict} {queue res : List SearchNode}
    {best : Int} {s2 : EngineState}
    (h : process_player_moves s b d seq analysis queue best = some (res, s2)) :
    (∃ ct, s2 = { s with current_tactic := ct }) ∧
    (res = [] ∨ ∃ extra, res = queue ++ extra ∧ extra.length ≤ 1 ∧
      ∀ n ∈ extra, n.depth = d + 1) := by
  rw [process_player_moves.eq_def] at h
  dsimp only at h
  split at h
  · cases h
    exact ⟨⟨s.current_tactic, rfl⟩, Or.inr ⟨[], by simp⟩⟩
  · split at h
    · cases h
    · split at h
      · cases h
      · split at h
        · cases h
        · split at h
          · cases h
            exact ⟨⟨_, rfl⟩, Or.inl rfl⟩
          · cases h
            refine ⟨⟨s.current_tactic, rfl⟩, Or.inr ⟨[_], rfl, by simp, ?_⟩⟩
            intro n hn
            rcases List.mem_cons.mp hn with rfl | hn2
            · rfl
            · simp at hn2

theorem stepNode_cont_shape {o : Oracle} {s : EngineState} {node : SearchNode}
    {rest : List SearchNode} {q : List SearchNode} {s2 : EngineState} {dq : Nat}
    (h : stepNode o s node rest = .cont q s2 dq) :
    (∃ ct, s2 = { s with current_tactic := ct }) ∧ dq ≤ 1 ∧
    (q = rest ∨ q = [] ∨
      (node.depth ≠ s.max_search_depth ∧ ∃ extra, q = rest ++ extra ∧
        extra.length ≤ o.B + 1 ∧ ∀ n ∈ extra, n.depth = node.depth + 1)) := by
  rw [stepNode] at h
  split at h
  · cases h
    exact ⟨⟨s.current_tactic, rfl⟩, by omega, Or.inl rfl⟩
  · rename_i hbase
    have hdne : node.depth ≠ s.max_search_depth := by
      intro hd
      apply hbase
      rw [hd]
      simp
    dsimp only at h
    split at h
    · cases h
    · rename_i analysis a0 arest hana
      clear hana
      split at h
      · cases h
      · split at h
        · split at h
          · cases h
          · rename_i queue hpem
            cases h
            obtain ⟨extra, hres, hlen, hdep⟩ := process_engine_moves_shape hpem
            have hexB : extra.length ≤ o.B := le_trans hlen (o.hB _ _ _)
            refine ⟨⟨s.current_tactic, rfl⟩, by omega,
              Or.inr (Or.inr ⟨hdne, extra, hres, by omega, hdep⟩)⟩
        · split at h
          · cases h
          · rename_i pr hppm
            cases h
            obtain ⟨hct, hq⟩ := process_player_moves_shape hppm
            refine ⟨hct, by omega, ?_⟩
            rcases hq with rfl | ⟨extra, hres, hlen, hdep⟩
            · exact Or.inr (Or.inl rfl)
            · exact Or.inr (Or.inr ⟨hdne, extra, hres, by omega, hdep⟩)

theorem stepNode_ret_shape {o : Oracle} {s : EngineState} {node : SearchNode}
    {rest : List SearchNode} {s2 : EngineState}
    (h : stepNode o s node rest = .ret s2) :
    ∃ ct, s2 = { s with current_tactic := ct } := by
  rw [stepNode] at h
  split at h
  · cases h
  · dsimp only at h
    split at h
    · cases h
    · split at h
      · cases h
        exact ⟨_, rfl⟩
      · split at h
        · split at h
          · cases h
          · cases h
        · split at h
          · cases h
          · cases h

/-! The worklist measure: one geometric weight per node, strictly decreasing
at every iteration. -/

def nodeWeight (B D : Nat) (n : SearchNode) : Nat := (B + 2) ^ (D - n.depth)

def queueMeasure (B D : Nat) (q : List SearchNode) : Nat :=
  (q.map (nodeWeight B D)).sum

theorem queueMeasure_nil (B D : Nat) : queueMeasure B D [] = 0 := rfl

theorem queueMeasure_cons (B D : Nat) (n : SearchNode) (q : List SearchNode) :
    queueMeasure B D (n :: q) = nodeWeight B D n + queueMeasure B D q := by
  simp [queueMeasure]

theorem queueMeasure_append (B D : Nat) (q1 q2 : List SearchNode) :
    queueMeasure B D (q1 ++ q2) = queueMeasure B D q1 + queueMeasure B D q2 := by
  simp [queueMeasure]

theorem nodeWeight_pos (B D : Nat) (n : SearchNode) : 1 ≤ nodeWeight B D n :=
  Nat.one_le_pow _ _ (by omega)

theorem queueMeasure_const_depth {B D d : Nat} {q : List SearchNode}
    (h : ∀ n ∈ q, n.depth = d) :
    queueMeasure B D q = q.length * (B + 2) ^ (D - d) := by
  induction q with
  | nil => simp [queueMeasure]
  | cons n rest ih =>
    rw [queueMeasure_cons, ih (fun x hx => h x (by simp [hx]))]
    rw [nodeWeight, h n (by simp)]
    simp [Nat.succ_mul]
    omega

/-- The strict decrease of the measure across one `.cont` step. -/
theorem stepNode_measure_lt {o : Oracle} {s : EngineState} {node : SearchNode}
    {rest q : List SearchNode} {s2 : EngineState} {dq : Nat}
    (h : stepNode o s node rest = .cont q s2 dq)
    (hnd : node.depth ≤ s.max_search_depth)
    (hrest : ∀ n ∈ rest, n.depth ≤ s.max_search_depth) :
    queueMeasure o.B s.max_search_depth q < queueMeasure o.B s.max_search_depth (node :: rest) ∧
    (∀ n ∈ q, n.depth ≤ s.max_search_depth) := by
  obtain ⟨_, _, hq⟩ := stepNode_cont_shape h
  have hw := nodeWeight_pos o.B s.max_search_depth node
  rcases hq with rfl | rfl | ⟨hne, extra, rfl, hlen, hdep⟩
  · rw [queueMeasure_cons]
    exact ⟨by omega, hrest⟩
  · rw [queueMeasure_cons, queueMeasure_nil]
    exact ⟨by omega, by simp⟩
  · have hdlt : node.depth < s.max_search_depth := by omega
    have hext : queueMeasure o.B s.max_search_depth extra =
        extra.length * (o.B + 2) ^ (s.max_search_depth - (node.depth + 1)) :=
      queueMeasure_const_depth hdep
    have hpow : (o.B + 2) ^ (s.max_search_depth - node.depth) =
        (o.B + 2) ^ (s.max_search_depth - (node.depth + 1)) * (o.B + 2) := by
      rw [← Nat.pow_succ]
      congr 1
      omega
    have hX : 1 ≤ (o.B + 2) ^ (s.max_search_depth - (node.depth + 1)) :=
      Nat.one_le_pow _ _ (by omega)
    constructor
    · rw [queueMeasure_append, queueMeasure_cons, hext, nodeWeight, hpow]
      have : extra.length * (o.B + 2) ^ (s.max_search_depth - (node.depth + 1)) ≤
          (o.B + 1) * (o.B + 2) ^ (s.max_search_depth - (node.depth + 1)) :=
        Nat.mul_le_mul_right _ hlen
      nlinarith
    · intro n hn
      rcases List.mem_append.mp hn with hn1 | hn2
      · exact hrest n hn1
      · rw [hdep n hn2]
        omega

/-- Fuel at least the queue measure rules out fuel exhaustion and bounds the
number of oracle queries by the measure. -/
theorem searchGo_no_fuelOut {o : Oracle} :
    ∀ (fuel : Nat) (q : List SearchNode) (s : EngineState) (acc : Nat),
    (∀ n ∈ q, n.depth ≤ s.max_search_depth) →
    queueMeasure o.B s.max_search_depth q ≤ fuel →
    searchGo o fuel q s acc ≠ .fuelOut ∧
    (∀ s2 c, searchGo o fuel q s acc = .out s2 c →
      c ≤ acc + queueMeasure o.B s.max_search_depth q) := by
  intro fuel
  induction fuel with
  | zero =>
    intro q s acc hdep hm
    cases q with
    | nil =>
      constructor
      · rw [searchGo]
        intro hcontra
        cases hcontra
      · intro s2 c h
        rw [searchGo] at h
        cases h
        omega
    | cons n rest =>
      exfalso
      have := nodeWeight_pos o.B s.max_search_depth n
      rw [queueMeasure_cons] at hm
      omega
  | succ f ih =>
    intro q s acc hdep hm
    cases q with
    | nil =>
      constructor
      · rw [searchGo]
        intro hcontra
        cases hcontra
      · intro s2 c h
        rw [searchGo] at h
        cases h
        omega
    | cons node rest =>
      rw [searchGo]
      cases hstep : stepNode o s node rest with
      | ret s2 =>
        constructor
        · intro hcontra
          cases hcontra
        · intro s3 c h
          cases h
          have := nodeWeight_pos o.B s.max_search_depth node
          rw [queueMeasure_cons]
          omega
      | err =>
        constructor
        · intro hcontra
          cases hcontra
        · intro s3 c h
          cases h
      | cont q2 s2 dq =>
        obtain ⟨⟨ct, rfl⟩, hdq, _⟩ := stepNode_cont_shape hstep
        obtain ⟨hlt, hdep2⟩ := stepNode_measure_lt hstep
          (hdep node (by simp)) (fun n hn => hdep n (by simp [hn]))
        rw [queueMeasure_cons] at hm hlt
        have hm2 : queueMeasure o.B s.max_search_depth q2 ≤ f := by omega
        obtain ⟨hnf, hcb⟩ := ih q2 { s with current_tactic := ct } (acc + dq) hdep2 hm2
        refine ⟨hnf, ?_⟩
        intro s3 c h
        have hc := hcb s3 c h
        dsimp only at hc
        rw [queueMeasure_cons]
        omega

/-- The search loop only ever rewrites `current_tactic`: every other state
field, in particular the board, survives unchanged. -/
theorem searchGo_frame {o : Oracle} :
    ∀ (fuel : Nat) (q : List SearchNode) (s : EngineState) (acc : Nat)
      (s2 : EngineState) (c : Nat),
    searchGo o fuel q s acc = .out s2 c →
    ∃ ct, s2 = { s with current_tactic := ct } := by
  intro fuel
  induction fuel with
  | zero =>
    intro q s acc s2 c h
    cases q with
    | nil =>
      rw [searchGo] at h
      cases h
      exact ⟨s.current_tactic, rfl⟩
    | cons n rest =>
      rw [searchGo] at h
      cases h
  | succ f ih =>
    intro q s acc s2 c h
    cases q with
    | nil =>
      rw [searchGo] at h
      cases h
      exact ⟨s.current_tactic, rfl⟩
    | cons node rest =>
      rw [searchGo] at h
      cases hstep : stepNode o s node rest with
      | ret s3 =>
        rw [hstep] at h
        cases h
        exact stepNode_ret_shape hstep
      | err =>
        rw [hstep] at h
        cases h
      | cont q2 s3 dq =>
        rw [hstep] at h
        obtain ⟨ct, rfl⟩ := (stepNode_cont_shape hstep).1
        obtain ⟨ct2, hct2⟩ := ih q2 _ (acc + dq) s2 c h
        exact ⟨ct2, hct2⟩

/-! ## C8: termination and query bound of the tactic search -/

/-- C8: for every oracle and state the search worklist drains within the
fuel `tactic_search` allots, the number of oracle queries issued is bounded by
that same (oracle-branching and depth dependent) quantity, each iteration
either discards the dequeued node or enqueues children exactly one ply
deeper, and a node at the maximum search depth (or on a finished board) is
discarded without expansion and without an oracle query. -/
theorem c8_search_termination :
    ∀ (o : Oracle) (s : EngineState),
    (searchGo o (searchFuel o s) [⟨s.board.copyStack1, 0, []⟩] s 0 ≠ .fuelOut ∧
     ∀ s2 c, searchGo o (searchFuel o s) [⟨s.board.copyStack1, 0, []⟩] s 0 = .out s2 c →
       c ≤ searchFuel o s) ∧
    (∀ (node : SearchNode) (rest q : List SearchNode) (s2 : EngineState) (dq : Nat),
       stepNode o s node rest = .cont q s2 dq →
       q = rest ∨ q = [] ∨
         ∃ extra, q = rest ++ extra ∧ ∀ n ∈ extra, n.depth = node.depth + 1) ∧
    (∀ (node : SearchNode) (rest : List SearchNode),
       node.depth = s.max_search_depth ∨ node.board.isGameOver = true →
       stepNode o s node rest = .cont rest s 0) := by
  intro o s
  refine ⟨?_, ?_, ?_⟩
  · have hms : queueMeasure o.B s.max_search_depth [⟨s.board.copyStack1, 0, []⟩] =
        searchFuel o s := by
      rw [queueMeasure_cons, queueMeasure_nil, nodeWeight, searchFuel]
      simp
    obtain ⟨h1, h2⟩ := searchGo_no_fuelOut (o := o) (searchFuel o s)
      [⟨s.board.copyStack1, 0, []⟩] s 0
      (by
        intro n hn
        simp only [List.mem_singleton] at hn
        subst hn
        exact Nat.zero_le _)
      (le_of_eq hms)
    refine ⟨h1, ?_⟩
    intro s2 c h
    have := h2 s2 c h
    omega
  · intro node rest q s2 dq h
    rcases (stepNode_cont_shape h).2.2 with rfl | rfl | ⟨_, extra, rfl, _, hdep⟩
    · exact Or.inl rfl
    · exact Or.inr (Or.inl rfl)
    · exact Or.inr (Or.inr ⟨extra, rfl, hdep⟩)
  · intro node rest hbase
    rw [stepNode, if_pos]
    rcases hbase with hb | hb
    · rw [hb]
      simp
    · rw [hb]
      simp

/-- C8 witness: the search loop on a finished board drains in one iteration
with zero oracle queries, within the fuel bound. -/
theorem c8_search_termination_witness :
    searchGo c7Oracle (searchFuel c7Oracle c7State)
      [⟨c7State.board.copyStack1, 0, []⟩] c7State 0 = .out c7State 0 ∧
    (0 : Nat) ≤ searchFuel c7Oracle c7State ∧
    stepNode c7Oracle c7State ⟨c7State.board.copyStack1, 0, []⟩ [] =
      .cont [] c7State 0 := by
  have h := c8_search_termination c7Oracle c7State
  have hout : searchGo c7Oracle (searchFuel c7Oracle c7State)
      [⟨c7State.board.copyStack1, 0, []⟩] c7State 0 = .out c7State 0 := by decide
  refine ⟨hout, h.1.2 c7State 0 hout, ?_⟩
  exact h.2.2 ⟨c7State.board.copyStack1, 0, []⟩ [] (Or.inr (by decide))

/-! ## C9: the search machinery never touches the board -/

/-- C9: the search and the move-selection operations leave the engine's board
(position, side to move and move stack alike) unchanged on every successful
exit path: `tactic_search` only rewrites `current_tactic`, and any state
`play_move` or `undo_tactic_move` returns carries the caller's board
untouched (the detectors operate on value copies by construction). -/
theorem c9_frame_preservation :
    (∀ (o : Oracle) (s s2 : EngineState), tactic_search o s = some s2 →
       s2.board = s.board ∧ s2.engine_colour = s.engine_colour) ∧
    (∀ (o : Oracle) (s : EngineState) (m : Move) (s2 : EngineState),
       play_move o s = some (m, s2) → s2.board = s.board) ∧
    (∀ (o : Oracle) (s s2 : EngineState), undo_tactic_move o s = some s2 →
       s2.board = s.board) := by
  have hts : ∀ (o : Oracle) (s s2 : EngineState), tactic_search o s = some s2 →
      ∃ ct, s2 = { s with current_tactic := ct } := by
    intro o s s2 h
    rw [tactic_search] at h
    cases hgo : searchGo o (searchFuel o s) [⟨s.board.copyStack1, 0, []⟩] s 0 with
    | out s3 c =>
      rw [hgo] at h
      cases h
      exact searchGo_frame _ _ _ _ _ _ hgo
    | err =>
      rw [hgo] at h
      cases h
    | fuelOut =>
      rw [hgo] at h
      cases h
  have hst : ∀ (o : Oracle) (s : EngineState) (m : Move) (s2 : EngineState),
      select_tactic_move o s = some (m, s2) → s2.board = s.board := by
    intro o s m s2 h
    rw [select_tactic_move] at h
    cases hct : s.current_tactic with
    | none => rw [hct] at h; cases h
    | some t =>
      rw [hct] at h
      try dsimp only at h
      cases hnm : t.next_move with
      | none => rw [hnm] at h; cases h
      | some p =>
        rw [hnm] at h
        try dsimp only at h
        split at h
        · cases hend : end_tactic o { s with current_tactic := some p.2 } with
          | none => rw [hend] at h; cases h
          | some s3 =>
            rw [hend] at h
            cases h
            rw [end_tactic] at hend
            obtain ⟨ct, rfl⟩ := hts o _ _ hend
            rfl
        · cases h
          rfl
  refine ⟨?_, ?_, ?_⟩
  · intro o s s2 h
    obtain ⟨ct, rfl⟩ := hts o s s2 h
    exact ⟨rfl, rfl⟩
  · intro o s m s2 h
    rw [play_move] at h
    cases hct : s.current_tactic with
    | some t =>
      rw [hct] at h
      exact hst o s m s2 (by rw [select_tactic_move]; exact h)
    | none =>
      rw [hct] at h
      cases han : o.analyse s.board s.normal_move_limit 2 with
      | nil => rw [han] at h; cases h
      | cons a0 rest =>
        rw [han] at h
        try dsimp only at h
        split at h
        · cases hpv : a0.pv with
          | nil => rw [hpv] at h; cases h
          | cons mv pvr =>
            rw [hpv] at h
            cases h
            rfl
        · cases hom : only_move s (a0 :: rest) a0.score with
          | none => rw [hom] at h; cases h
          | some r =>
            rw [hom] at h
            cases r with
            | some mv =>
              try dsimp only at h
              cases h
              rfl
            | none =>
              try dsimp only at h
              cases hsearch : tactic_search o s with
              | none => rw [hsearch] at h; cases h
              | some s1 =>
                rw [hsearch] at h
                try dsimp only at h
                obtain ⟨ct, hct1⟩ := hts o s s1 hsearch
                cases hct2 : s1.current_tactic with
                | some t =>
                  rw [hct2] at h
                  try dsimp only at h
                  cases hnm : t.next_move with
                  | none => rw [hnm] at h; cases h
                  | some p =>
                    obtain ⟨pm, pt⟩ := p
                    rw [hnm] at h
                    try dsimp only at h
                    cases h
                    rw [hct1]
                | none =>
                  rw [hct2] at h
                  try dsimp only at h
                  rw [select_normal_move] at h
                  cases hnl : normalLoop (o.analyse s1.board s1.normal_move_limit s1.num_pv) none with
                  | none => rw [hnl] at h; cases h
                  | some mv =>
                    rw [hnl] at h
                    try dsimp only at h
                    cases h
                    rw [hct1]
  · intro o s s2 h
    rw [undo_tactic_move] at h
    cases hct : s.current_tactic with
    | none => rw [hct] at h; cases h
    | some t =>
      rw [hct] at h
      try dsimp only at h
      split at h
      · cases h
        rfl
      · split at h
        · rw [end_tactic] at h
          obtain ⟨ct, rfl⟩ := hts o _ _ h
          rfl
        · rw [end_tactic] at h
          obtain ⟨ct, rfl⟩ := hts o _ _ h
          rfl

/-- C9 witness: the frame property on the concrete scenario runs. -/
theorem c9_frame_preservation_witness :
    (tactic_search c10Oracle baseState =
       some { baseState with
         current_tactic := some (Tactic.make [mv1] (-20000) TT_CHECKMATE) } ∧
     ({ baseState with
         current_tactic := some (Tactic.make [mv1] (-20000) TT_CHECKMATE) }).board =
       baseState.board) ∧
    (play_move c1Oracle c1State =
       some (mvA, { c1State with
         current_tactic := some (⟨[mvA, mvB], TT_FORK, 100, 1, 1⟩ : Tactic) }) ∧
     ({ c1State with
         current_tactic := some (⟨[mvA, mvB], TT_FORK, 100, 1, 1⟩ : Tactic) }).board =
       c1State.board) := by
  constructor
  · refine ⟨by decide, ?_⟩
    exact (c9_frame_preservation.1 c10Oracle baseState _ (by decide)).1
  · refine ⟨by decide, ?_⟩
    exact c9_frame_preservation.2.1 c1Oracle c1State mvA _ (by decide)

end ChessTrainer
